import Mathlib

/-!
# Verification of the CSP / Nonogram solver repository

This file gives a shallow embedding of the repository's code:

* `Nonogram/NonogramConstraint.py` — the line constraint (`is_satisfied`,
  `_is_partially_consistent`, `_dp_check_possible`, `_matches_clue`);
* `CSP/Solver.py` — the generic backtracking `Solver` (with
  `forward_check`, `is_consistent`, `save_domain`/`load_domain`) and the
  specialized `FastNonogramSolver`.

The classes `CSP/Variable.py` and `CSP/Problem.py` are imported by the
code but are not present in the repository; the small query contract the
solvers need from them (`get_unassigned_variables`, `get_constraints`,
`neighbors`) is modelled from the spec where indicated.

Cells of a Nonogram line take the Python values `None` / `0` / `1`; they
are embedded as `Option Bool` (`none` = unassigned, `some false` = 0,
`some true` = 1).
-/

namespace Nonogram

/-- A cell of a Nonogram line: unassigned, empty (0) or filled (1). -/
abbrev Cell := Option Bool

theorem dropWhile_length_le {α : Type} (p : α → Bool) (l : List α) :
    (l.dropWhile p).length ≤ l.length := by
  induction l with
  | nil => simp [List.dropWhile]
  | cons a t ih =>
    simp only [List.dropWhile]
    cases p a
    · simp
    · simp
      omega

/-- Specification-side definition ("split the binary line into maximal
runs of 1s separated by one-or-more 0s"): the ordered list of lengths of
the maximal runs of `true`. -/
def runLengths : List Bool → List Nat
  | [] => []
  | false :: t => runLengths t
  | true :: t => ((t.takeWhile id).length + 1) :: runLengths (t.dropWhile id)
termination_by l => l.length
decreasing_by
  all_goals simp_wf
  all_goals have := dropWhile_length_le (p := id) (l := t)
  all_goals omega

/-- Translation of the block-collecting loop of
`NonogramConstraint._matches_clue` (`current_block` is the accumulator
counting the length of the run currently being read). -/
def blocksAux : List Bool → Nat → List Nat
  | [], cur => if cur > 0 then [cur] else []
  | true :: t, cur => blocksAux t (cur + 1)
  | false :: t, cur => if cur > 0 then cur :: blocksAux t 0 else blocksAux t 0

/-- The `blocks` list computed by `NonogramConstraint._matches_clue`. -/
def blocks (l : List Bool) : List Nat := blocksAux l 0

/-- Translation of `NonogramConstraint._matches_clue`: a complete
assignment matches iff (empty clue) all cells are 0, else the maximal-run
lengths of the line equal the clue. Any `None` value returns `False`. -/
def matches_clue (clue : List Nat) (values : List Cell) : Bool :=
  if values.contains none then false
  else
    let line := values.map (fun c => c.getD false)
    if clue = [] then line.all (fun b => b = false)
    else blocks line = clue

/-- The `can_place` loop inside `NonogramConstraint._dp_check_possible`,
for a block of length `b` starting at the head of the suffix `vs`: the
block must not run past the line end and no covered cell may be forced
to 0. -/
def canPlaceBlock (vs : List Cell) (b : Nat) : Bool :=
  decide (b ≤ vs.length) && (vs.take b).all (fun c => c ≠ some false)

/-- Translation of `NonogramConstraint._dp_check_possible`.  The Python
code fills a table `dp[i][j]` forward in lexicographic order of `(i, j)`
(all writes go to strictly later cells), so the finished table marks
exactly the states reachable from `dp[0][0]`; `dp[n][m]` is reachable
from `dp[0][0]` iff `dp[n][m]` is reachable from the current state.
`dpSuffix vs cl` reads the table backward: it decides whether `dp[n][m]`
is reachable from state `(i, j)` where `vs` is the suffix of the cell
values from position `i` and `cl` the suffix of the clue from block `j`.
The two alternatives are the code's two transitions: place one empty
cell (allowed when the cell is not forced to 1), or place clue block `j`
starting here (allowed when the cell is not forced to 0 and `can_place`
holds), followed — unless it is the last block — by one mandatory
separator cell not forced to 1. -/
def dpSuffix : List Cell → List Nat → Bool
  | vs, [] => vs.all (fun c => c ≠ some true)
  | [], _ :: _ => false
  | v :: vs, b :: rest =>
    (if v = some true then false else dpSuffix vs (b :: rest)) ||
    (if v = some false then false
     else if canPlaceBlock (v :: vs) b then
       match rest with
       | [] => dpSuffix ((v :: vs).drop b) []
       | r :: rs =>
         if h : b < (v :: vs).length then
           if (v :: vs).get ⟨b, h⟩ = some true then false
           else dpSuffix ((v :: vs).drop (b + 1)) (r :: rs)
         else false
     else false)
termination_by vs cl => cl.length + vs.length
decreasing_by
  all_goals simp_wf
  all_goals omega

/-- `NonogramConstraint._dp_check_possible(values)` with clue `clue`:
whether `dp[line_length][len(clue)]` is reachable. -/
def dp_check_possible (clue : List Nat) (values : List Cell) : Bool :=
  dpSuffix values clue

/-- Translation of `NonogramConstraint._is_partially_consistent` (the
second definition in the file, which shadows the first): empty clue
requires no cell forced to 1; otherwise two counting bounds
short-circuit infeasibility (the second one is computed in `ℤ` because
the Python expression `line_length - total_filled_needed` can be
negative), and then the DP decides. -/
def is_partially_consistent (clue : List Nat) (values : List Cell) : Bool :=
  if clue = [] then values.all (fun c => c ≠ some true)
  else
    let filled_count := values.countP (fun c => c = some true)
    let total_filled_needed := clue.sum
    if filled_count > total_filled_needed then false
    else
      let empty_count := values.countP (fun c => c = some false)
      if (empty_count : Int) > (values.length : Int) - (total_filled_needed : Int)
      then false
      else dp_check_possible clue values

/-- Translation of `NonogramConstraint.is_satisfied`: partial
consistency when some cell is unassigned, exact clue match otherwise. -/
def is_satisfied (clue : List Nat) (values : List Cell) : Bool :=
  if values.contains none then is_partially_consistent clue values
  else matches_clue clue values

/-- A full line `l` is a completion of the partial line `vs`: same
length, agreeing with every fixed cell. -/
def Extends (vs : List Cell) (l : List Bool) : Prop :=
  List.Forall₂ (fun c b => c = none ∨ c = some b) vs l

instance : DecidableEq Cell := inferInstance

instance Extends.decidable (vs : List Cell) (l : List Bool) :
    Decidable (Extends vs l) := by
  unfold Extends
  infer_instance

theorem runLengths_eq_nil {l : List Bool} :
    runLengths l = [] ↔ ∀ b ∈ l, b = false := by
  induction l with
  | nil => simp [runLengths]
  | cons a t ih =>
    cases a
    · simpa [runLengths] using ih
    · simp [runLengths]

theorem takeWhile_id_all_true (t : List Bool) :
    t.takeWhile id = List.replicate (t.takeWhile id).length true := by
  induction t with
  | nil => simp
  | cons a t ih =>
    cases a
    · simp [List.takeWhile]
    · simpa [List.takeWhile, List.replicate] using ih

theorem head?_dropWhile_id (t : List Bool) :
    (t.dropWhile id).head? ≠ some true := by
  induction t with
  | nil => simp
  | cons a t ih =>
    cases a
    · simp [List.dropWhile]
    · simpa [List.dropWhile] using ih

theorem takeWhile_id_replicate_append (k : Nat) (m : List Bool)
    (hm : m.head? ≠ some true) :
    (List.replicate k true ++ m).takeWhile id = List.replicate k true := by
  induction k with
  | zero =>
    simp only [List.replicate, List.nil_append]
    cases m with
    | nil => simp
    | cons c m' =>
      cases c
      · simp [List.takeWhile]
      · simp at hm
  | succ k ih =>
    simpa [List.replicate, List.takeWhile] using ih

theorem dropWhile_id_replicate_append (k : Nat) (m : List Bool)
    (hm : m.head? ≠ some true) :
    (List.replicate k true ++ m).dropWhile id = m := by
  induction k with
  | zero =>
    simp only [List.replicate, List.nil_append]
    cases m with
    | nil => simp
    | cons c m' =>
      cases c
      · simp [List.dropWhile]
      · simp at hm
  | succ k ih =>
    simpa [List.replicate, List.dropWhile] using ih

theorem runLengths_replicate_append {b : Nat} (hb : 0 < b) (m : List Bool)
    (hm : m.head? ≠ some true) :
    runLengths (List.replicate b true ++ m) = b :: runLengths m := by
  obtain ⟨k, rfl⟩ : ∃ k, b = k + 1 := ⟨b - 1, by omega⟩
  have : List.replicate (k + 1) true ++ m = true :: (List.replicate k true ++ m) := by
    simp [List.replicate_succ]
  rw [this, runLengths, takeWhile_id_replicate_append k m hm,
    dropWhile_id_replicate_append k m hm]
  simp

theorem runLengths_true_cons_iff {b : Nat} (hb : 0 < b) (l' : List Bool)
    (rest : List Nat) :
    runLengths (true :: l') = b :: rest ↔
      ∃ m, true :: l' = List.replicate b true ++ m ∧
        m.head? ≠ some true ∧ runLengths m = rest := by
  constructor
  · intro h
    rw [runLengths] at h
    obtain ⟨h1, h2⟩ := List.cons.injEq _ _ _ _ ▸ h
    refine ⟨l'.dropWhile id, ?_, head?_dropWhile_id l', h2⟩
    have hsplit : l'.takeWhile id ++ l'.dropWhile id = l' :=
      List.takeWhile_append_dropWhile id l'
    have hrep := takeWhile_id_all_true l'
    calc true :: l' = true :: (l'.takeWhile id ++ l'.dropWhile id) := by rw [hsplit]
      _ = (true :: l'.takeWhile id) ++ l'.dropWhile id := by simp
      _ = (true :: List.replicate (l'.takeWhile id).length true) ++ l'.dropWhile id := by
            rw [← hrep]
      _ = List.replicate b true ++ l'.dropWhile id := by
            rw [← h1, List.replicate_succ]
  · rintro ⟨m, heq, hm, hr⟩
    rw [heq, runLengths_replicate_append hb m hm, hr]

theorem extends_nil_iff (l : List Bool) : Extends [] l ↔ l = [] :=
  List.forall₂_nil_left_iff

theorem extends_cons_iff (v : Cell) (vs : List Cell) (l : List Bool) :
    Extends (v :: vs) l ↔
      ∃ c l', (v = none ∨ v = some c) ∧ Extends vs l' ∧ l = c :: l' :=
  List.forall₂_cons_left_iff

theorem extends_cons_cons (v : Cell) (vs : List Cell) (c : Bool) (l : List Bool) :
    Extends (v :: vs) (c :: l) ↔ (v = none ∨ v = some c) ∧ Extends vs l :=
  List.forall₂_cons

theorem extends_map_getD (vs : List Cell) :
    Extends vs (vs.map (fun c => c.getD false)) := by
  induction vs with
  | nil => exact List.Forall₂.nil
  | cons v vs ih =>
    refine List.Forall₂.cons ?_ ih
    cases v with
    | none => left; rfl
    | some b => right; rfl

theorem extends_append_iff (vs : List Cell) (l1 l2 : List Bool) :
    Extends vs (l1 ++ l2) ↔
      Extends (vs.take l1.length) l1 ∧ Extends (vs.drop l1.length) l2 := by
  induction l1 generalizing vs with
  | nil => simp [Extends]
  | cons c l1' ih =>
    cases vs with
    | nil =>
      simp only [List.cons_append, extends_nil_iff]
      constructor
      · intro h; cases h
      · rintro ⟨h, -⟩
        rw [List.take_nil] at h
        exact absurd (extends_nil_iff _ |>.mp h) (by simp)
    | cons v vs' =>
      simp only [List.cons_append, List.length_cons, List.take_succ_cons,
        List.drop_succ_cons, extends_cons_cons, ih, and_assoc]

theorem extends_replicate_true_iff (vs : List Cell) (b : Nat) :
    Extends vs (List.replicate b true) ↔
      vs.length = b ∧ ∀ c ∈ vs, c ≠ some false := by
  induction b generalizing vs with
  | zero =>
    rw [show List.replicate 0 true = ([] : List Bool) from rfl]
    constructor
    · intro h
      have hv : vs = [] := List.forall₂_nil_right_iff.mp h
      subst hv; simp
    · rintro ⟨h, -⟩
      have hv : vs = [] := List.eq_nil_of_length_eq_zero h
      subst hv; exact List.Forall₂.nil
  | succ b ih =>
    cases vs with
    | nil =>
      simp [Extends, List.replicate_succ, List.forall₂_nil_left_iff]
    | cons v vs' =>
      simp only [List.replicate_succ, extends_cons_cons, ih, List.length_cons,
        List.mem_cons, ne_eq]
      constructor
      · rintro ⟨hv, hlen, hall⟩
        refine ⟨by omega, ?_⟩
        rintro c (rfl | hc)
        · rcases hv with rfl | rfl <;> simp
        · exact hall c hc
      · rintro ⟨hlen, hall⟩
        refine ⟨?_, by omega, fun c hc => hall c (Or.inr hc)⟩
        cases v with
        | none => left; rfl
        | some x =>
          cases x
          · exact absurd rfl (hall (some false) (Or.inl rfl))
          · right; rfl

theorem canPlaceBlock_iff (vs : List Cell) (b : Nat) :
    canPlaceBlock vs b = true ↔
      b ≤ vs.length ∧ ∀ c ∈ vs.take b, c ≠ some false := by
  simp [canPlaceBlock, List.all_eq_true]

theorem head?_ne_true_of_all_false {m : List Bool}
    (h : ∀ x ∈ m, x = false) : m.head? ≠ some true := by
  cases m with
  | nil => simp
  | cons c m' =>
    have := h c (List.mem_cons_self c m')
    subst this
    simp

theorem runLengths_false_cons (l : List Bool) :
    runLengths (false :: l) = runLengths l := by
  simp [runLengths]

theorem extends_all_false_not_true {vs : List Cell} {l : List Bool}
    (hext : Extends vs l) (hall : ∀ b ∈ l, b = false) :
    ∀ c ∈ vs, c ≠ some true := by
  induction hext with
  | nil => simp
  | @cons c b vs' l' hcb _ ih =>
    intro x hx
    rcases List.mem_cons.mp hx with rfl | hx'
    · have hb : b = false := hall b (List.mem_cons_self b l')
      subst hb
      rcases hcb with rfl | rfl <;> simp
    · exact ih (fun y hy => hall y (List.mem_cons_of_mem _ hy)) x hx'

theorem dpSuffix_nil_iff (vs : List Cell) :
    dpSuffix vs [] = true ↔ ∃ l, Extends vs l ∧ runLengths l = [] := by
  rw [show dpSuffix vs [] = vs.all (fun c => decide (c ≠ some true)) from by
    cases vs <;> simp [dpSuffix]]
  constructor
  · intro h
    refine ⟨vs.map (fun c => c.getD false), extends_map_getD vs,
      runLengths_eq_nil.mpr ?_⟩
    intro x hx
    simp only [List.mem_map] at hx
    obtain ⟨c, hc, rfl⟩ := hx
    have hc' := List.all_eq_true.mp h c hc
    cases c with
    | none => rfl
    | some y =>
      cases y
      · rfl
      · simp at hc'
  · rintro ⟨l, hext, hrl⟩
    rw [List.all_eq_true]
    intro c hc
    have := extends_all_false_not_true hext (runLengths_eq_nil.mp hrl) c hc
    simpa using this

/-- Decompose the right-hand side of the DP correctness statement at a
cons cell: a completion either starts with a 0 (and the tail completes
the same clue) or starts with the full first block of `b` 1s. -/
theorem exists_completion_cons_iff {v : Cell} {vs : List Cell} {b : Nat}
    (hb : 0 < b) (rest : List Nat) :
    (∃ l, Extends (v :: vs) l ∧ runLengths l = b :: rest) ↔
      ((v ≠ some true ∧ ∃ l', Extends vs l' ∧ runLengths l' = b :: rest) ∨
       (∃ m, Extends (v :: vs) (List.replicate b true ++ m) ∧
         m.head? ≠ some true ∧ runLengths m = rest)) := by
  constructor
  · rintro ⟨l, hext, hrl⟩
    obtain ⟨c, l', hv, hext', rfl⟩ := (extends_cons_iff v vs l).mp hext
    cases c with
    | false =>
      rw [runLengths_false_cons] at hrl
      refine Or.inl ⟨?_, l', hext', hrl⟩
      rcases hv with rfl | rfl <;> simp
    | true =>
      obtain ⟨m, heq, hm, hr⟩ := (runLengths_true_cons_iff hb l' rest).mp hrl
      exact Or.inr ⟨m, heq ▸ hext, hm, hr⟩
  · rintro (⟨hv, l', hext', hrl'⟩ | ⟨m, hext, hm, hr⟩)
    · refine ⟨false :: l', ?_, by rw [runLengths_false_cons]; exact hrl'⟩
      rw [extends_cons_cons]
      refine ⟨?_, hext'⟩
      cases v with
      | none => left; rfl
      | some x =>
        cases x
        · right; rfl
        · exact absurd rfl hv
    · exact ⟨List.replicate b true ++ m, hext,
        by rw [runLengths_replicate_append hb m hm, hr]⟩

theorem take_length_eq_iff {α : Type} (l : List α) (b : Nat) :
    (l.take b).length = b ↔ b ≤ l.length := by
  rw [List.length_take]
  omega

theorem extends_block_decomp_nil {v : Cell} {vs : List Cell} {b : Nat}
    (hb : 0 < b) :
    (∃ m, Extends (v :: vs) (List.replicate b true ++ m) ∧
      m.head? ≠ some true ∧ runLengths m = []) ↔
    (canPlaceBlock (v :: vs) b = true ∧
      ∃ m, Extends ((v :: vs).drop b) m ∧ runLengths m = []) := by
  constructor
  · rintro ⟨m, hext, -, hr⟩
    rw [show (List.replicate b true ++ m) = (List.replicate b true ++ m) from rfl,
      extends_append_iff, List.length_replicate] at hext
    obtain ⟨htake, hdrop⟩ := hext
    rw [extends_replicate_true_iff] at htake
    refine ⟨(canPlaceBlock_iff _ _).mpr ⟨?_, htake.2⟩, m, hdrop, hr⟩
    exact (take_length_eq_iff _ _).mp htake.1
  · rintro ⟨hcan, m, hdrop, hr⟩
    obtain ⟨hle, hall⟩ := (canPlaceBlock_iff _ _).mp hcan
    refine ⟨m, ?_, head?_ne_true_of_all_false (runLengths_eq_nil.mp hr), hr⟩
    rw [extends_append_iff, List.length_replicate]
    exact ⟨(extends_replicate_true_iff _ _).mpr
      ⟨(take_length_eq_iff _ _).mpr hle, hall⟩, hdrop⟩

theorem extends_block_decomp_cons {v : Cell} {vs : List Cell} {b r : Nat}
    {rs : List Nat} (hb : 0 < b) :
    (∃ m, Extends (v :: vs) (List.replicate b true ++ m) ∧
      m.head? ≠ some true ∧ runLengths m = r :: rs) ↔
    (canPlaceBlock (v :: vs) b = true ∧
      ∃ h : b < (v :: vs).length, (v :: vs).get ⟨b, h⟩ ≠ some true ∧
        ∃ m', Extends ((v :: vs).drop (b + 1)) m' ∧ runLengths m' = r :: rs) := by
  constructor
  · rintro ⟨m, hext, hm, hr⟩
    rw [extends_append_iff, List.length_replicate] at hext
    obtain ⟨htake, hdrop⟩ := hext
    rw [extends_replicate_true_iff] at htake
    have hcan : canPlaceBlock (v :: vs) b = true :=
      (canPlaceBlock_iff _ _).mpr ⟨(take_length_eq_iff _ _).mp htake.1, htake.2⟩
    cases m with
    | nil => simp [runLengths] at hr
    | cons c m' =>
      have hc : c = false := by
        cases c
        · rfl
        · simp at hm
      subst hc
      rw [runLengths_false_cons] at hr
      have hlt : b < (v :: vs).length := by
        by_contra hnot
        rw [List.drop_eq_nil_of_le (by omega)] at hdrop
        exact absurd (extends_nil_iff _ |>.mp hdrop) (by simp)
      rw [List.drop_eq_getElem_cons hlt, extends_cons_cons] at hdrop
      refine ⟨hcan, hlt, ?_, m', hdrop.2, hr⟩
      rw [List.get_eq_getElem]
      rcases hdrop.1 with h | h <;> rw [h] <;> simp
  · rintro ⟨hcan, hlt, hget, m', hdrop, hr⟩
    obtain ⟨hle, hall⟩ := (canPlaceBlock_iff _ _).mp hcan
    refine ⟨false :: m', ?_, by simp, by rw [runLengths_false_cons]; exact hr⟩
    rw [extends_append_iff, List.length_replicate]
    refine ⟨(extends_replicate_true_iff _ _).mpr
      ⟨(take_length_eq_iff _ _).mpr hle, hall⟩, ?_⟩
    rw [List.drop_eq_getElem_cons hlt, extends_cons_cons]
    refine ⟨?_, hdrop⟩
    rw [List.get_eq_getElem] at hget
    cases hv : (v :: vs)[b] with
    | none => left; rfl
    | some x =>
      cases x
      · right; rfl
      · exact absurd hv hget

theorem canPlaceBlock_some_false {vs : List Cell} {b : Nat} (hb : 0 < b) :
    canPlaceBlock (some false :: vs) b = false := by
  obtain ⟨k, rfl⟩ : ∃ k, b = k + 1 := ⟨b - 1, by omega⟩
  simp [canPlaceBlock, List.take_succ_cons]

/-- Correctness of the reachability reading of
`NonogramConstraint._dp_check_possible`: for a clue of positive block
lengths, the DP accepts exactly when some completion of the fixed cells
has the clue as its maximal-run decomposition. -/
theorem dpSuffix_iff_exists :
    ∀ (vs : List Cell) (clue : List Nat), (∀ x ∈ clue, 0 < x) →
      (dpSuffix vs clue = true ↔ ∃ l, Extends vs l ∧ runLengths l = clue)
  | vs, [], _ => dpSuffix_nil_iff vs
  | [], b :: rest, _ => by
    rw [show dpSuffix [] (b :: rest) = false from by simp [dpSuffix]]
    simp only [Bool.false_eq_true, false_iff, not_exists]
    rintro l ⟨hext, hrl⟩
    have : l = [] := extends_nil_iff l |>.mp hext
    subst this
    simp [runLengths] at hrl
  | v :: vs, [b], hpos => by
    have hb : 0 < b := hpos b (by simp)
    rw [exists_completion_cons_iff hb []]
    rw [extends_block_decomp_nil hb,
      ← dpSuffix_iff_exists vs [b] hpos,
      ← dpSuffix_nil_iff ((v :: vs).drop b)]
    cases v with
    | none =>
      simp only [dpSuffix]
      simp
      try tauto
    | some x =>
      cases x
      · simp only [dpSuffix]
        simp [canPlaceBlock_some_false hb]
        try tauto
      · simp only [dpSuffix]
        simp
        try tauto
  | v :: vs, b :: r :: rs, hpos => by
    have hb : 0 < b := hpos b (by simp)
    have hrest : ∀ x ∈ r :: rs, 0 < x := fun x hx => hpos x (by simp [hx])
    rw [exists_completion_cons_iff hb (r :: rs)]
    · rw [extends_block_decomp_cons hb,
        ← dpSuffix_iff_exists vs (b :: r :: rs) hpos,
        ← dpSuffix_iff_exists ((v :: vs).drop (b + 1)) (r :: rs) hrest]
      by_cases hlt : b < vs.length + 1
      · cases v with
        | none =>
          simp only [dpSuffix]
          simp [hlt]
          try tauto
        | some x =>
          cases x
          · simp only [dpSuffix]
            simp [hlt, canPlaceBlock_some_false hb]
            try tauto
          · simp only [dpSuffix]
            simp [hlt]
            try tauto
      · cases v with
        | none =>
          simp only [dpSuffix]
          simp [hlt]
          try tauto
        | some x =>
          cases x
          · simp only [dpSuffix]
            simp [hlt, canPlaceBlock_some_false hb]
            try tauto
          · simp only [dpSuffix]
            simp [hlt]
            try tauto
termination_by vs clue => clue.length + vs.length
decreasing_by
  all_goals simp_wf
  all_goals omega

theorem blocksAux_eq_runLengths (l : List Bool) :
    ∀ cur : Nat, blocksAux l cur = runLengths (List.replicate cur true ++ l) := by
  induction l with
  | nil =>
    intro cur
    simp only [blocksAux, List.append_nil]
    rcases Nat.eq_zero_or_pos cur with rfl | hcur
    · simp [runLengths]
    · rw [show (List.replicate cur true : List Bool) =
        List.replicate cur true ++ [] from by simp,
        runLengths_replicate_append hcur [] (by simp)]
      simp [runLengths, hcur]
  | cons a t ih =>
    intro cur
    cases a
    · simp only [blocksAux]
      rcases Nat.eq_zero_or_pos cur with rfl | hcur
      · simp [ih 0, runLengths_false_cons]
      · rw [if_pos hcur, ih 0,
          show List.replicate cur true ++ false :: t =
            List.replicate cur true ++ (false :: t) from rfl,
          runLengths_replicate_append hcur (false :: t) (by simp)]
        simp [runLengths_false_cons]
    · simp only [blocksAux]
      rw [ih (cur + 1)]
      congr 1
      rw [List.replicate_succ']
      simp

/-- The run list computed by `_matches_clue` is the maximal-run
decomposition of the spec. -/
theorem blocks_eq_runLengths (l : List Bool) : blocks l = runLengths l := by
  simpa using blocksAux_eq_runLengths l 0

theorem sum_runLengths (l : List Bool) :
    (runLengths l).sum = l.count true := by
  have hgen : ∀ n (l : List Bool), l.length ≤ n →
      (runLengths l).sum = l.count true := by
    intro n
    induction n with
    | zero =>
      intro l hl
      have hnil : l = [] := List.length_eq_zero.mp (by omega)
      subst hnil
      simp [runLengths]
    | succ n ih =>
      intro l hl
      cases l with
      | nil => simp [runLengths]
      | cons a t =>
        have ht : t.length ≤ n := by
          simp only [List.length_cons] at hl
          omega
        cases a
        · rw [runLengths_false_cons, ih t ht]
          simp [List.count_cons]
        · rw [runLengths]
          simp only [List.sum_cons]
          have hdlen : (t.dropWhile id).length ≤ n := by
            have h1 := dropWhile_length_le id t
            omega
          rw [ih (t.dropWhile id) hdlen]
          have hcount : t.count true =
              (t.takeWhile id).count true + (t.dropWhile id).count true := by
            conv_lhs => rw [← List.takeWhile_append_dropWhile id t]
            rw [List.count_append]
          have htake : (t.takeWhile id).count true = (t.takeWhile id).length := by
            conv_lhs => rw [takeWhile_id_all_true t]
            simp
          rw [List.count_cons]
          simp
          omega
  exact hgen l.length l le_rfl

theorem extends_length_eq {vs : List Cell} {l : List Bool} (h : Extends vs l) :
    vs.length = l.length :=
  List.Forall₂.length_eq h

theorem extends_countP_true_le {vs : List Cell} {l : List Bool}
    (h : Extends vs l) :
    vs.countP (fun c => c = some true) ≤ l.count true := by
  induction h with
  | nil => simp
  | @cons c b vs' l' hcb _ ih =>
    rcases hcb with rfl | rfl
    · cases b
      · simp only [List.countP_cons, List.count_cons]
        simp
        omega
      · simp only [List.countP_cons, List.count_cons]
        simp
        omega
    · cases b
      · simp only [List.countP_cons, List.count_cons]
        simp
        omega
      · simp only [List.countP_cons, List.count_cons]
        simp
        omega

theorem extends_countP_false_le {vs : List Cell} {l : List Bool}
    (h : Extends vs l) :
    vs.countP (fun c => c = some false) ≤ l.count false := by
  induction h with
  | nil => simp
  | @cons c b vs' l' hcb _ ih =>
    rcases hcb with rfl | rfl
    · cases b
      · simp only [List.countP_cons, List.count_cons]
        simp
        omega
      · simp only [List.countP_cons, List.count_cons]
        simp
        omega
    · cases b
      · simp only [List.countP_cons, List.count_cons]
        simp
        omega
      · simp only [List.countP_cons, List.count_cons]
        simp
        omega

theorem count_false_eq {l : List Bool} :
    l.count false = l.length - l.count true := by
  induction l with
  | nil => simp
  | cons a t ih =>
    have hle := List.count_le_length (a := true) (l := t)
    cases a
    · simp only [List.count_cons, List.length_cons]
      simp [ih]
      try omega
    · simp only [List.count_cons, List.length_cons]
      simp [ih]
      try omega

theorem map_some_contains_none (l : List Bool) :
    (l.map some : List Cell).contains none = false := by
  induction l with
  | nil => rfl
  | cons b t ih => simpa using ih

theorem map_getD_map_some (l : List Bool) :
    (l.map some : List Cell).map (fun c => c.getD false) = l := by
  induction l with
  | nil => rfl
  | cons b t ih => simp [ih]

theorem is_satisfied_map_some (clue : List Nat) (l : List Bool) :
    is_satisfied clue (l.map some) = true ↔ runLengths l = clue := by
  rw [is_satisfied, map_some_contains_none]
  simp only [Bool.false_eq_true, if_false]
  rw [matches_clue, map_some_contains_none]
  simp only [Bool.false_eq_true, if_false, map_getD_map_some]
  by_cases hclue : clue = []
  · subst hclue
    rw [if_pos rfl]
    rw [show (l.all fun b => decide (b = false)) = true ↔ ∀ b ∈ l, b = false
      from by simp [List.all_eq_true]]
    exact (runLengths_eq_nil).symm
  · rw [if_neg hclue]
    rw [show (decide (blocks l = clue)) = true ↔ blocks l = clue from by simp]
    rw [blocks_eq_runLengths]

/-- C2: for a fully assigned line, `is_satisfied` holds exactly when the
maximal-run decomposition of the line equals the clue; in particular for
an empty clue it holds exactly when every cell is 0. -/
theorem is_satisfied_full_iff_runLengths (clue : List Nat) (l : List Bool) :
    (is_satisfied clue (l.map some) = true ↔ runLengths l = clue) ∧
    (clue = [] →
      (is_satisfied clue (l.map some) = true ↔ ∀ b ∈ l, b = false)) :=
  ⟨is_satisfied_map_some clue l, fun hclue => by
    rw [is_satisfied_map_some clue l, hclue]
    exact runLengths_eq_nil⟩

/-- C1: for a partial line (some cell unassigned) and a clue of positive
block lengths, `is_satisfied` (the counting short-circuits followed by
the `_dp_check_possible` feasibility DP) holds exactly when some
completion of the unassigned cells, consistent with the fixed cells, has
the clue as its maximal-run decomposition. -/
theorem is_satisfied_partial_iff_completion (clue : List Nat)
    (values : List Cell) (hpos : ∀ x ∈ clue, 0 < x)
    (hpart : none ∈ values) :
    is_satisfied clue values = true ↔
      ∃ l, Extends values l ∧ runLengths l = clue := by
  have hcont : values.contains none = true :=
    List.elem_eq_true_of_mem hpart
  rw [is_satisfied, hcont]
  simp only [if_true]
  by_cases hclue : clue = []
  · subst hclue
    rw [is_partially_consistent, if_pos rfl]
    rw [show (values.all fun c => decide (c ≠ some true)) =
      dpSuffix values [] from by cases values <;> simp [dpSuffix]]
    exact dpSuffix_nil_iff values
  · rw [is_partially_consistent, if_neg hclue]
    dsimp only
    split_ifs with h1 h2
    · simp only [Bool.false_eq_true, false_iff, not_exists]
      rintro l ⟨hext, hrl⟩
      have hsum : l.count true = clue.sum := by
        rw [← sum_runLengths, hrl]
      have hle := extends_countP_true_le hext
      omega
    · simp only [Bool.false_eq_true, false_iff, not_exists]
      rintro l ⟨hext, hrl⟩
      have hsum : l.count true = clue.sum := by
        rw [← sum_runLengths, hrl]
      have hlen : values.length = l.length := extends_length_eq hext
      have hle := extends_countP_false_le hext
      have hcf : l.count false = l.length - l.count true := count_false_eq
      have hct : l.count true ≤ l.length := List.count_le_length true l
      omega
    · rw [dp_check_possible]
      exact dpSuffix_iff_exists values clue hpos

/-- Witness for `is_satisfied_full_iff_runLengths` at the concrete full
line `[1, 1, 0]` with clue `[2]`, and for its empty-clue part at `[0]`. -/
theorem is_satisfied_full_iff_runLengths_spot :
    (is_satisfied [2] [some true, some true, some false] = true ↔
      runLengths [true, true, false] = [2]) ∧
    (is_satisfied [] [some false] = true ↔ ∀ b ∈ [false], b = false) :=
  ⟨(is_satisfied_full_iff_runLengths [2] [true, true, false]).1,
    (is_satisfied_full_iff_runLengths [] [false]).2 rfl⟩

/-- Witness for `is_satisfied_partial_iff_completion` at the concrete
partial line `[1, ?]` with clue `[1]`. -/
theorem is_satisfied_partial_iff_completion_spot :
    (∀ x ∈ [1], 0 < x) ∧ (none ∈ ([some true, none] : List Cell)) ∧
      (is_satisfied [1] [some true, none] = true ↔
        ∃ l, Extends [some true, none] l ∧ runLengths l = [1]) :=
  ⟨by decide, by decide,
    is_satisfied_partial_iff_completion [1] [some true, none]
      (by decide) (by decide)⟩

end Nonogram

namespace CSP

/-- A constraint of `CSP/Constraint.py`: the ordered list of (indices
of) the variables it governs, and its `is_satisfied` predicate, which —
as in the Python classes — reads exactly the current values of its own
variables (`[var.value for var in self.variables]`). -/
structure Cst (α : Type) where
  vars : List Nat
  pred : List (Option α) → Bool

/-- Modelled from the spec: `Problem` aggregates the constraints; its
variables are the indices `0 .. n-1` into the state lists below
(`CSP/Problem.py` is not in the repository). -/
structure Problem (α : Type) where
  constraints : List (Cst α)

/-- The mutable search state: each variable's `value` and `domain`
(indexed in `problem.variables` order) and the solver's `back_up` trail
of domain snapshots. -/
structure SState (α : Type) where
  values : List (Option α)
  domains : List (List α)
  back_up : List (List (List α))

variable {α : Type}

/-- `var.value` of variable `v`. -/
def getVal (st : SState α) (v : Nat) : Option α := st.values.getD v none

/-- Modelled from the spec: `Variable.has_value`. -/
def hasValue (st : SState α) (v : Nat) : Bool := (getVal st v).isSome

/-- `var.value = x` as a state update. -/
def setValue (st : SState α) (v : Nat) (x : Option α) : SState α :=
  { st with values := st.values.set v x }

/-- `var.domain` of variable `v`. -/
def getDomain (st : SState α) (v : Nat) : List α := st.domains.getD v []

/-- `var.domain = d` as a state update. -/
def setDomain (st : SState α) (v : Nat) (d : List α) : SState α :=
  { st with domains := st.domains.set v d }

/-- Modelled from the spec: `Problem.get_unassigned_variables()`, the
unassigned variables in stable problem order. -/
def get_unassigned_variables (st : SState α) : List Nat :=
  (List.range st.values.length).filter (fun v => (getVal st v).isNone)

/-- `constraint.is_satisfied()` evaluated in state `st`. -/
def evalC (st : SState α) (c : Cst α) : Bool := c.pred (c.vars.map (getVal st))

/-- `Solver.is_finished`: every constraint satisfied and no variable
unassigned. -/
def is_finished (P : Problem α) (st : SState α) : Bool :=
  P.constraints.all (evalC st) && decide (get_unassigned_variables st = [])

/-- `Solver.is_consistent(var)`: every constraint containing `var` is
satisfied. -/
def is_consistent (P : Problem α) (st : SState α) (var : Nat) : Bool :=
  (P.constraints.filter (fun c => decide (var ∈ c.vars))).all (evalC st)

/-- Modelled from the spec: `Problem.get_constraints(v)`, all
constraints referencing `v`. -/
def get_constraints (P : Problem α) (var : Nat) : List (Cst α) :=
  P.constraints.filter (fun c => decide (var ∈ c.vars))

/-- Modelled from the spec: `Variable.neighbors`, the variables sharing
at least one constraint with `var`.  Python stores them in an unordered
set; the model fixes ascending index order (no claim depends on the
order: each neighbor's narrowing is independent of the others). -/
def neighborsOf (P : Problem α) (n var : Nat) : List Nat :=
  (List.range n).filter
    (fun w => w ≠ var ∧ ∃ c ∈ P.constraints, var ∈ c.vars ∧ w ∈ c.vars)

/-- The inner constraints loop of `Solver.forward_check`: value `x` for
neighbor `nb` violates some constraint of `cs` containing `nb`, under
the temporary assignment `neighbor.value = x` (the code's `break` only
stops the scan early and does not change which values get removed). -/
def violates (st : SState α) (cs : List (Cst α)) (nb : Nat) (x : α) : Bool :=
  cs.any (fun c => decide (nb ∈ c.vars) && !(evalC (setValue st nb (some x)) c))

/-- The Python loop `for value in tmp: ... tmp.remove(value)` of
`Solver.forward_check`, iterating over the very list it mutates: the
iterator is index-based, so after `tmp.remove(value)` shifts the list
left, the element that moves into the removed slot is skipped.  `i` is
the iterator index; `tmp.remove` deletes the first occurrence of the
value. -/
def fcLoop [DecidableEq α] (bad : α → Bool) (tmp : List α) (i : Nat) : List α :=
  if h : i < tmp.length then
    let value := tmp.get ⟨i, h⟩
    if bad value then fcLoop bad (tmp.erase value) (i + 1)
    else fcLoop bad tmp (i + 1)
  else tmp
termination_by tmp.length - i
decreasing_by
  all_goals simp_wf
  · have hmem : tmp.get ⟨i, h⟩ ∈ tmp := tmp.get_mem _ _
    have := List.length_erase_of_mem hmem
    omega
  · omega

/-- The per-neighbor loop of `Solver.forward_check`: assigned neighbors
are skipped; for an unassigned neighbor the surviving `tmp` is computed
(the temporary `neighbor.value` assignments are applied inside
`violates` and the final `neighbor.value = None` restores the state),
then an empty `tmp` fails immediately — with the earlier neighbors'
narrowing still in place — and otherwise `neighbor.domain = tmp`. -/
def fcGo [DecidableEq α] (P : Problem α) (var : Nat) :
    SState α → List Nat → Bool × SState α
  | st, [] => (true, st)
  | st, nb :: rest =>
    if hasValue st nb then fcGo P var st rest
    else
      let tmp := fcLoop (violates st (get_constraints P var) nb) (getDomain st nb) 0
      if tmp = [] then (false, st)
      else fcGo P var (setDomain st nb tmp) rest

/-- `Solver.forward_check(var)`. -/
def forward_check [DecidableEq α] (P : Problem α) (st : SState α) (var : Nat) :
    Bool × SState α :=
  fcGo P var st (neighborsOf P st.values.length var)

/-- `Solver.save_domain`: push a snapshot of every variable's domain
onto the trail. -/
def save_domain (st : SState α) : SState α :=
  { st with back_up := st.domains :: st.back_up }

/-- `Solver.load_domain`: pop the trail and restore every variable's
domain from the snapshot.  (Python would raise on an empty deque; in
`backtracking` every pop is preceded by the matching push, so the
empty case below is never reached — see the restoration lemmas.) -/
def load_domain (st : SState α) : SState α :=
  match st.back_up with
  | [] => st
  | d :: rest => { st with domains := d, back_up := rest }

/-- Result of a `backtracking` run: the returned boolean, the final
state, `safe = false` iff some call indexed
`get_unassigned_variables()[0]` on an empty list (a Python
`IndexError`), and `fuelOk = false` iff the modelled recursion ran out
of fuel (never happens with fuel above the recursion depth, see
`backtrackingFuel_fuelOk`). -/
structure BtResult (α : Type) where
  result : Bool
  state : SState α
  safe : Bool
  fuelOk : Bool

mutual

/-- `Solver.backtracking`, with explicit fuel for the recursion
depth. -/
def backtrackingFuel [DecidableEq α] (P : Problem α) :
    Nat → SState α → BtResult α
  | 0, st => ⟨false, st, true, false⟩
  | f + 1, st =>
    if is_finished P st then ⟨true, st, true, true⟩
    else
      match get_unassigned_variables st with
      | [] => ⟨false, st, false, true⟩
      | var :: _ => tryValuesFuel P f st var (getDomain st var)
termination_by f _ => (f, 0, 0)

/-- One iteration of the value loop of `Solver.backtracking`: push the
trail, assign, check consistency, forward-check, recurse; on failure of
any of these undo the assignment and pop the trail. -/
def tryValueFuel [DecidableEq α] (P : Problem α) (f : Nat) (st : SState α)
    (var : Nat) (value : α) : BtResult α :=
  let stA := setValue (save_domain st) var (some value)
  if is_consistent P stA var then
    let fc := forward_check P stA var
    if fc.1 then
      let r := backtrackingFuel P f fc.2
      if r.result then r
      else ⟨false, load_domain (setValue r.state var none), r.safe, r.fuelOk⟩
    else ⟨false, load_domain (setValue fc.2 var none), true, true⟩
  else ⟨false, load_domain (setValue stA var none), true, true⟩
termination_by (f, 0, 1)

/-- The `for value in ordered_values` loop of `Solver.backtracking`:
first success is returned unchanged, failures proceed to the next
value. -/
def tryValuesFuel [DecidableEq α] (P : Problem α) (f : Nat) :
    SState α → Nat → List α → BtResult α
  | st, _, [] => ⟨false, st, true, true⟩
  | st, var, value :: rest =>
    let r := tryValueFuel P f st var value
    if r.result then r
    else
      let r2 := tryValuesFuel P f r.state var rest
      ⟨r2.result, r2.state, r.safe && r2.safe, r.fuelOk && r2.fuelOk⟩
termination_by st var values => (f, 1, values.length + 1)

end

/-- `Solver.solve` (its timing and printing are I/O and are not
modelled): run `backtracking`; fuel `n + 1` dominates the recursion
depth, which is bounded by the number of unassigned variables. -/
def solve [DecidableEq α] (P : Problem α) (st : SState α) : BtResult α :=
  backtrackingFuel P (st.values.length + 1) st

theorem setValue_values (st : SState α) (v : Nat) (x : Option α) :
    (setValue st v x).values = st.values.set v x := rfl

theorem setValue_domains (st : SState α) (v : Nat) (x : Option α) :
    (setValue st v x).domains = st.domains := rfl

theorem setValue_back_up (st : SState α) (v : Nat) (x : Option α) :
    (setValue st v x).back_up = st.back_up := rfl

theorem setDomain_values (st : SState α) (v : Nat) (d : List α) :
    (setDomain st v d).values = st.values := rfl

theorem save_domain_values (st : SState α) :
    (save_domain st).values = st.values := rfl

theorem save_domain_domains (st : SState α) :
    (save_domain st).domains = st.domains := rfl

theorem save_domain_back_up (st : SState α) :
    (save_domain st).back_up = st.domains :: st.back_up := rfl

theorem set_getD_none {β : Type} {l : List (Option β)} {i : Nat}
    (h : l.getD i none = none) : l.set i none = l := by
  by_cases hi : i < l.length
  · apply List.ext_getElem?
    intro j
    by_cases hj : i = j
    · subst hj
      rw [List.getElem?_set_self hi]
      rw [List.getD, List.get?_eq_getElem?, List.getElem?_eq_getElem hi] at h
      simp only [Option.getD_some] at h
      rw [List.getElem?_eq_getElem hi, h]
    · rw [List.getElem?_set_ne hj]
  · exact List.set_eq_of_length_le (by omega)

theorem getVal_setValue_ne (st : SState α) {v w : Nat} (x : Option α)
    (h : w ≠ v) : getVal (setValue st v x) w = getVal st w := by
  unfold getVal setValue
  simp only [List.getD, List.get?_eq_getElem?]
  rw [List.getElem?_set_ne (by omega)]

theorem getVal_setValue_self (st : SState α) {v : Nat} (x : Option α)
    (h : v < st.values.length) : getVal (setValue st v x) v = x := by
  unfold getVal setValue
  simp only [List.getD, List.get?_eq_getElem?]
  rw [List.getElem?_set_self h]
  rfl

theorem mem_get_unassigned {st : SState α} {v : Nat} :
    v ∈ get_unassigned_variables st ↔
      v < st.values.length ∧ getVal st v = none := by
  unfold get_unassigned_variables
  rw [List.mem_filter, List.mem_range]
  constructor
  · rintro ⟨h1, h2⟩
    exact ⟨h1, Option.isNone_iff_eq_none.mp (by simpa using h2)⟩
  · rintro ⟨h1, h2⟩
    exact ⟨h1, by simp [h2]⟩

/-- Undoing a trial assignment of an initially unassigned variable
restores the values list exactly. -/
theorem values_undo {st : SState α} {var : Nat} {value : α}
    (h : getVal st var = none) :
    (st.values.set var (some value)).set var none = st.values := by
  rw [List.set_set]
  exact set_getD_none h

theorem fcLoop_subset [DecidableEq α] (bad : α → Bool) :
    ∀ (tmp : List α) (i : Nat), fcLoop bad tmp i ⊆ tmp := by
  have H : ∀ n (tmp : List α) (i : Nat), tmp.length - i ≤ n →
      fcLoop bad tmp i ⊆ tmp := by
    intro n
    induction n with
    | zero =>
      intro tmp i h
      rw [fcLoop]
      split
      · omega
      · exact fun a ha => ha
    | succ n ih =>
      intro tmp i h
      rw [fcLoop]
      split
      · rename_i hlt
        dsimp only
        split
        · have hmem : tmp.get ⟨i, hlt⟩ ∈ tmp := List.get_mem tmp i hlt
          have hlen := List.length_erase_of_mem hmem
          exact List.Subset.trans (ih _ _ (by omega)) (List.erase_subset _ _)
        · exact ih _ _ (by omega)
      · exact fun a ha => ha
  exact fun tmp i => H (tmp.length - i) tmp i le_rfl

/-- The skipping loop only ever erases values for which `bad` holds
(`tmp.remove(value)` erases an element equal to a tested bad value), so
any value with `bad x = false` survives. -/
theorem fcLoop_mem_of_not_bad [DecidableEq α] (bad : α → Bool) {x : α}
    (hx : bad x = false) :
    ∀ (tmp : List α) (i : Nat), x ∈ tmp → x ∈ fcLoop bad tmp i := by
  have H : ∀ n (tmp : List α) (i : Nat), tmp.length - i ≤ n → x ∈ tmp →
      x ∈ fcLoop bad tmp i := by
    intro n
    induction n with
    | zero =>
      intro tmp i h hmem
      rw [fcLoop]
      split
      · omega
      · exact hmem
    | succ n ih =>
      intro tmp i h hmem
      rw [fcLoop]
      split
      · rename_i hlt
        dsimp only
        split
        · rename_i hbad
          have hne : x ≠ tmp.get ⟨i, hlt⟩ := by
            intro hcontra
            rw [← hcontra, hx] at hbad
            cases hbad
          have hmemv : tmp.get ⟨i, hlt⟩ ∈ tmp := List.get_mem tmp i hlt
          have hlen := List.length_erase_of_mem hmemv
          exact ih _ _ (by omega) ((List.mem_erase_of_ne hne).mpr hmem)
        · exact ih _ _ (by omega) hmem
      · exact hmem
  exact fun tmp i => H (tmp.length - i) tmp i le_rfl

theorem fcGo_values [DecidableEq α] (P : Problem α) (var : Nat) :
    ∀ (nbs : List Nat) (st : SState α), (fcGo P var st nbs).2.values = st.values := by
  intro nbs
  induction nbs with
  | nil => intro st; rfl
  | cons nb rest ih =>
    intro st
    rw [fcGo]
    split
    · exact ih st
    · dsimp only
      split
      · rfl
      · exact ih _

theorem fcGo_back_up [DecidableEq α] (P : Problem α) (var : Nat) :
    ∀ (nbs : List Nat) (st : SState α),
      (fcGo P var st nbs).2.back_up = st.back_up := by
  intro nbs
  induction nbs with
  | nil => intro st; rfl
  | cons nb rest ih =>
    intro st
    rw [fcGo]
    split
    · exact ih st
    · dsimp only
      split
      · rfl
      · exact ih _

theorem forward_check_values [DecidableEq α] (P : Problem α)
    (st : SState α) (var : Nat) :
    (forward_check P st var).2.values = st.values :=
  fcGo_values P var _ st

theorem forward_check_back_up [DecidableEq α] (P : Problem α)
    (st : SState α) (var : Nat) :
    (forward_check P st var).2.back_up = st.back_up :=
  fcGo_back_up P var _ st

theorem backtrackingFuel_zero [DecidableEq α] (P : Problem α) (st : SState α) :
    backtrackingFuel P 0 st = ⟨false, st, true, false⟩ := by
  rw [backtrackingFuel]

theorem backtrackingFuel_succ [DecidableEq α] (P : Problem α) (f : Nat)
    (st : SState α) :
    backtrackingFuel P (f + 1) st =
      if is_finished P st then ⟨true, st, true, true⟩
      else
        match get_unassigned_variables st with
        | [] => ⟨false, st, false, true⟩
        | var :: _ => tryValuesFuel P f st var (getDomain st var) := by
  rw [backtrackingFuel]

theorem tryValueFuel_eq [DecidableEq α] (P : Problem α) (f : Nat)
    (st : SState α) (var : Nat) (value : α) :
    tryValueFuel P f st var value =
      if is_consistent P (setValue (save_domain st) var (some value)) var then
        if (forward_check P (setValue (save_domain st) var (some value)) var).1 then
          if (backtrackingFuel P f
              (forward_check P (setValue (save_domain st) var (some value)) var).2).result then
            backtrackingFuel P f
              (forward_check P (setValue (save_domain st) var (some value)) var).2
          else
            ⟨false,
              load_domain (setValue (backtrackingFuel P f
                (forward_check P (setValue (save_domain st) var (some value)) var).2).state
                var none),
              (backtrackingFuel P f
                (forward_check P (setValue (save_domain st) var (some value)) var).2).safe,
              (backtrackingFuel P f
                (forward_check P (setValue (save_domain st) var (some value)) var).2).fuelOk⟩
        else
          ⟨false, load_domain (setValue
            (forward_check P (setValue (save_domain st) var (some value)) var).2 var none),
            true, true⟩
      else
        ⟨false, load_domain (setValue
          (setValue (save_domain st) var (some value)) var none), true, true⟩ := by
  rw [tryValueFuel]

theorem tryValuesFuel_nil [DecidableEq α] (P : Problem α) (f : Nat)
    (st : SState α) (var : Nat) :
    tryValuesFuel P f st var [] = ⟨false, st, true, true⟩ := by
  rw [tryValuesFuel]

theorem tryValuesFuel_cons [DecidableEq α] (P : Problem α) (f : Nat)
    (st : SState α) (var : Nat) (value : α) (rest : List α) :
    tryValuesFuel P f st var (value :: rest) =
      if (tryValueFuel P f st var value).result then tryValueFuel P f st var value
      else
        ⟨(tryValuesFuel P f (tryValueFuel P f st var value).state var rest).result,
          (tryValuesFuel P f (tryValueFuel P f st var value).state var rest).state,
          (tryValueFuel P f st var value).safe &&
            (tryValuesFuel P f (tryValueFuel P f st var value).state var rest).safe,
          (tryValueFuel P f st var value).fuelOk &&
            (tryValuesFuel P f (tryValueFuel P f st var value).state var rest).fuelOk⟩ := by
  rw [tryValuesFuel]

theorem fcGo_nil [DecidableEq α] (P : Problem α) (var : Nat) (st : SState α) :
    fcGo P var st [] = (true, st) := by
  rw [fcGo]

theorem fcGo_cons [DecidableEq α] (P : Problem α) (var : Nat) (st : SState α)
    (nb : Nat) (rest : List Nat) :
    fcGo P var st (nb :: rest) =
      if hasValue st nb then fcGo P var st rest
      else
        if fcLoop (violates st (get_constraints P var) nb) (getDomain st nb) 0 = [] then
          (false, st)
        else
          fcGo P var (setDomain st nb
            (fcLoop (violates st (get_constraints P var) nb) (getDomain st nb) 0)) rest := by
  rw [fcGo]

theorem load_domain_cons {st : SState α} {d : List (List α)}
    {rest : List (List (List α))} (h : st.back_up = d :: rest) :
    load_domain st = ⟨st.values, d, rest⟩ := by
  unfold load_domain
  cases st with
  | mk v dd b =>
    simp only at h
    subst h
    rfl

/-- Undoing one trial (`var.value = None` then `load_domain`) from any
state whose values are the trial assignment over `st` and whose trail
top is the snapshot pushed from `st` restores `st` exactly. -/
theorem undo_eq {st : SState α} {var : Nat} {value : α}
    (h : getVal st var = none) {stX : SState α}
    (hv : stX.values = st.values.set var (some value))
    (hb : stX.back_up = st.domains :: st.back_up) :
    load_domain (setValue stX var none) = st := by
  have h1 : (setValue stX var none).values = st.values := by
    rw [setValue_values, hv, values_undo h]
  have h2 : (setValue stX var none).back_up = st.domains :: st.back_up := by
    rw [setValue_back_up, hb]
  rw [load_domain_cons h2, h1]

theorem tryValue_restore_of [DecidableEq α] (P : Problem α) (f : Nat)
    (hbt : ∀ st : SState α, (backtrackingFuel P f st).result = false →
      (backtrackingFuel P f st).state = st) :
    ∀ (st : SState α) (var : Nat) (value : α), getVal st var = none →
      (tryValueFuel P f st var value).result = false →
      (tryValueFuel P f st var value).state = st := by
  intro st var value hun hres
  rw [tryValueFuel_eq] at hres ⊢
  have hvA : (setValue (save_domain st) var (some value)).values =
      st.values.set var (some value) := rfl
  have hbA : (setValue (save_domain st) var (some value)).back_up =
      st.domains :: st.back_up := rfl
  by_cases hcons :
      is_consistent P (setValue (save_domain st) var (some value)) var = true
  · rw [if_pos hcons] at hres ⊢
    by_cases hfc :
        (forward_check P (setValue (save_domain st) var (some value)) var).1 = true
    · rw [if_pos hfc] at hres ⊢
      by_cases hr : (backtrackingFuel P f
          (forward_check P (setValue (save_domain st) var (some value)) var).2).result = true
      · rw [if_pos hr] at hres
        exact absurd hres (by simp [hr])
      · rw [if_neg hr] at hres ⊢
        have hrst := hbt _ (by simpa using hr)
        refine @undo_eq _ _ _ value hun _ ?_ ?_
        · rw [hrst, forward_check_values, hvA]
        · rw [hrst, forward_check_back_up, hbA]
    · rw [if_neg hfc] at hres ⊢
      refine @undo_eq _ _ _ value hun _ ?_ ?_
      · rw [forward_check_values, hvA]
      · rw [forward_check_back_up, hbA]
  · rw [if_neg hcons] at hres ⊢
    exact @undo_eq _ _ _ value hun _ hvA hbA

theorem tryValues_restore_of [DecidableEq α] (P : Problem α) (f : Nat)
    (htv : ∀ (st : SState α) (var : Nat) (value : α), getVal st var = none →
      (tryValueFuel P f st var value).result = false →
      (tryValueFuel P f st var value).state = st) :
    ∀ (values : List α) (st : SState α) (var : Nat), getVal st var = none →
      (tryValuesFuel P f st var values).result = false →
      (tryValuesFuel P f st var values).state = st := by
  intro values
  induction values with
  | nil =>
    intro st var h _
    rw [tryValuesFuel_nil]
  | cons v rest ih =>
    intro st var h hres
    rw [tryValuesFuel_cons] at hres ⊢
    by_cases hr : (tryValueFuel P f st var v).result = true
    · rw [if_pos hr] at hres
      exact absurd hres (by simp [hr])
    · rw [if_neg hr] at hres ⊢
      have hrst : (tryValueFuel P f st var v).state = st :=
        htv st var v h (by simpa using hr)
      rw [hrst] at hres ⊢
      exact ih st var h (by simpa using hres)

/-- `Solver.backtracking` restores the state exactly when it fails:
trail pops match pushes and every domain/value mutation inside the
failed search is reverted. -/
theorem backtracking_restore [DecidableEq α] (P : Problem α) :
    ∀ (f : Nat) (st : SState α), (backtrackingFuel P f st).result = false →
      (backtrackingFuel P f st).state = st := by
  intro f
  induction f with
  | zero =>
    intro st _
    rw [backtrackingFuel_zero]
  | succ f ih =>
    intro st hres
    rw [backtrackingFuel_succ] at hres ⊢
    by_cases hfin : is_finished P st = true
    · rw [if_pos hfin] at hres
      exact absurd hres (by simp)
    · rw [if_neg hfin] at hres ⊢
      cases heq : get_unassigned_variables st with
      | nil => rfl
      | cons var tail =>
        rw [heq] at hres
        have hvar : var ∈ get_unassigned_variables st := by
          rw [heq]
          exact List.mem_cons_self _ _
        have hun := (mem_get_unassigned.mp hvar).2
        exact tryValues_restore_of P f (tryValue_restore_of P f ih)
          _ st var hun hres

theorem getVal_values_eq {st1 st2 : SState α} (h : st1.values = st2.values)
    (v : Nat) : getVal st1 v = getVal st2 v := by
  unfold getVal
  rw [h]

theorem evalC_values_eq {st1 st2 : SState α} (h : st1.values = st2.values)
    (c : Cst α) : evalC st1 c = evalC st2 c := by
  unfold evalC
  congr 1
  exact List.map_congr_left fun v _ => getVal_values_eq h v

theorem evalC_congr {st1 st2 : SState α} {c : Cst α}
    (h : ∀ v ∈ c.vars, getVal st1 v = getVal st2 v) :
    evalC st1 c = evalC st2 c := by
  unfold evalC
  congr 1
  exact List.map_congr_left h

theorem violates_values_eq [DecidableEq α] {st1 st2 : SState α}
    (h : st1.values = st2.values) (cs : List (Cst α)) (nb : Nat) (x : α) :
    violates st1 cs nb x = violates st2 cs nb x := by
  unfold violates
  congr 1
  funext c
  congr 1
  congr 1
  exact evalC_values_eq (by simp [setValue_values, h]) c

theorem getDomain_setDomain_ne (st : SState α) {v w : Nat} (d : List α)
    (h : w ≠ v) : getDomain (setDomain st v d) w = getDomain st w := by
  unfold getDomain setDomain
  simp only [List.getD, List.get?_eq_getElem?]
  rw [List.getElem?_set_ne (by omega)]

theorem getDomain_setDomain_self (st : SState α) {v : Nat} (d : List α)
    (h : v < st.domains.length) : getDomain (setDomain st v d) v = d := by
  unfold getDomain setDomain
  simp only [List.getD, List.get?_eq_getElem?]
  rw [List.getElem?_set_self h]
  rfl

theorem setDomain_out_of_range (st : SState α) {v : Nat} (d : List α)
    (h : st.domains.length ≤ v) : setDomain st v d = st := by
  unfold setDomain
  cases st with
  | mk vv dd bb =>
    simp only at h
    simp [List.set_eq_of_length_le h]

theorem getDomain_setValue (st : SState α) (v w : Nat) (x : Option α) :
    getDomain (setValue st v x) w = getDomain st w := rfl

theorem getDomain_save_domain (st : SState α) (w : Nat) :
    getDomain (save_domain st) w = getDomain st w := rfl

theorem getVal_setDomain (st : SState α) (v w : Nat) (d : List α) :
    getVal (setDomain st v d) w = getVal st w := rfl

theorem fcGo_domains_subset [DecidableEq α] (P : Problem α) (var : Nat) :
    ∀ (nbs : List Nat) (st : SState α) (v : Nat),
      getDomain (fcGo P var st nbs).2 v ⊆ getDomain st v := by
  intro nbs
  induction nbs with
  | nil =>
    intro st v
    rw [fcGo_nil]
    exact fun a ha => ha
  | cons nb rest ih =>
    intro st v
    rw [fcGo_cons]
    split
    · exact ih st v
    · split
      · exact fun a ha => ha
      · refine fun a ha => ?_
        have h1 := ih (setDomain st nb
          (fcLoop (violates st (get_constraints P var) nb) (getDomain st nb) 0)) v ha
        by_cases hv : v = nb
        · subst hv
          by_cases hlt : v < st.domains.length
          · rw [getDomain_setDomain_self st _ hlt] at h1
            exact fcLoop_subset _ _ _ h1
          · rw [setDomain_out_of_range st _ (by omega)] at h1
            exact h1
        · rw [getDomain_setDomain_ne st _ hv] at h1
          exact h1

theorem fcGo_domains_assigned [DecidableEq α] (P : Problem α) (var : Nat) :
    ∀ (nbs : List Nat) (st : SState α) (v : Nat), getVal st v ≠ none →
      getDomain (fcGo P var st nbs).2 v = getDomain st v := by
  intro nbs
  induction nbs with
  | nil =>
    intro st v _
    rw [fcGo_nil]
  | cons nb rest ih =>
    intro st v hv
    rw [fcGo_cons]
    split
    · exact ih st v hv
    · rename_i hnb
      split
      · rfl
      · have hne : v ≠ nb := by
          intro h
          subst h
          rw [hasValue, Option.isSome_iff_ne_none] at hnb
          simp at hnb
          exact hv hnb
        rw [ih _ v (by rw [getVal_setDomain]; exact hv),
          getDomain_setDomain_ne st _ hne]

/-- Number of unassigned variables (the recursion-depth measure). -/
def unassignedCount (st : SState α) : Nat :=
  (get_unassigned_variables st).length

theorem unassignedCount_values_eq {st1 st2 : SState α}
    (h : st1.values = st2.values) : unassignedCount st1 = unassignedCount st2 := by
  unfold unassignedCount get_unassigned_variables getVal
  rw [h]

theorem filter_length_lt {l : List Nat} {p q : Nat → Bool}
    (hpq : ∀ a ∈ l, q a = true → p a = true) (a0 : Nat) (ha0 : a0 ∈ l)
    (hp : p a0 = true) (hq : q a0 = false) :
    (l.filter q).length < (l.filter p).length := by
  induction l with
  | nil => cases ha0
  | cons a t ih =>
    rw [List.filter_cons, List.filter_cons]
    by_cases haa : a = a0
    · subst haa
      rw [hp, hq]
      have hmono : (t.filter q).length ≤ (t.filter p).length := by
        rw [(List.countP_eq_length_filter q t).symm,
          (List.countP_eq_length_filter p t).symm]
        exact List.countP_mono_left fun x hx => hpq x (List.mem_cons_of_mem _ hx)
      simp
      omega
    · have ha0t : a0 ∈ t := by
        rcases List.mem_cons.mp ha0 with h | h
        · exact absurd h.symm haa
        · exact h
      have hlt := ih (fun x hx => hpq x (List.mem_cons_of_mem _ hx)) ha0t
      cases hqa : q a
      · cases hpa : p a
        · simp
          omega
        · simp
          omega
      · rw [hpq a (List.mem_cons_self a t) hqa]
        simp
        omega

theorem unassignedCount_assign_lt {st : SState α} {var : Nat} {value : α}
    (h1 : var < st.values.length) (h2 : getVal st var = none) :
    unassignedCount (setValue (save_domain st) var (some value)) <
      unassignedCount st := by
  unfold unassignedCount get_unassigned_variables
  have hlen : (setValue (save_domain st) var (some value)).values.length =
      st.values.length := by
    simp [setValue_values, save_domain_values]
  rw [hlen]
  refine filter_length_lt ?_ var (by simpa using h1) (by simp [h2]) ?_
  · intro a _ hqa
    by_cases hav : a = var
    · rw [hav, show getVal (setValue (save_domain st) var (some value)) var =
        some value from getVal_setValue_self _ _ (by simpa using h1)] at hqa
      simp at hqa
    · rw [getVal_setValue_ne _ _ hav] at hqa
      exact hqa
  · rw [show getVal (setValue (save_domain st) var (some value)) var =
      some value from getVal_setValue_self _ _ (by simpa using h1)]
    simp

theorem tryValue_sound_of [DecidableEq α] (P : Problem α) (f : Nat)
    (hbt : ∀ st : SState α, (backtrackingFuel P f st).result = true →
      is_finished P (backtrackingFuel P f st).state = true) :
    ∀ (st : SState α) (var : Nat) (value : α),
      (tryValueFuel P f st var value).result = true →
      is_finished P (tryValueFuel P f st var value).state = true := by
  intro st var value hres
  rw [tryValueFuel_eq] at hres ⊢
  by_cases hcons :
      is_consistent P (setValue (save_domain st) var (some value)) var = true
  · rw [if_pos hcons] at hres ⊢
    by_cases hfc :
        (forward_check P (setValue (save_domain st) var (some value)) var).1 = true
    · rw [if_pos hfc] at hres ⊢
      by_cases hr : (backtrackingFuel P f
          (forward_check P (setValue (save_domain st) var (some value)) var).2).result = true
      · rw [if_pos hr] at hres ⊢
        exact hbt _ hr
      · rw [if_neg hr] at hres
        exact absurd hres (by simp)
    · rw [if_neg hfc] at hres
      exact absurd hres (by simp)
  · rw [if_neg hcons] at hres
    exact absurd hres (by simp)

theorem tryValues_sound_of [DecidableEq α] (P : Problem α) (f : Nat)
    (htv : ∀ (st : SState α) (var : Nat) (value : α),
      (tryValueFuel P f st var value).result = true →
      is_finished P (tryValueFuel P f st var value).state = true) :
    ∀ (values : List α) (st : SState α) (var : Nat),
      (tryValuesFuel P f st var values).result = true →
      is_finished P (tryValuesFuel P f st var values).state = true := by
  intro values
  induction values with
  | nil =>
    intro st var hres
    rw [tryValuesFuel_nil] at hres
    exact absurd hres (by simp)
  | cons v rest ih =>
    intro st var hres
    rw [tryValuesFuel_cons] at hres ⊢
    by_cases hr : (tryValueFuel P f st var v).result = true
    · rw [if_pos hr] at hres ⊢
      exact htv _ _ _ hr
    · rw [if_neg hr] at hres ⊢
      exact ih _ var (by simpa using hres)

/-- When `backtracking` returns `True`, its final state is finished:
every constraint satisfied and no variable unassigned. -/
theorem backtracking_sound [DecidableEq α] (P : Problem α) :
    ∀ (f : Nat) (st : SState α), (backtrackingFuel P f st).result = true →
      is_finished P (backtrackingFuel P f st).state = true := by
  intro f
  induction f with
  | zero =>
    intro st hres
    rw [backtrackingFuel_zero] at hres
    exact absurd hres (by simp)
  | succ f ih =>
    intro st hres
    rw [backtrackingFuel_succ] at hres ⊢
    by_cases hfin : is_finished P st = true
    · rw [if_pos hfin] at hres ⊢
      exact hfin
    · rw [if_neg hfin] at hres ⊢
      cases heq : get_unassigned_variables st with
      | nil =>
        rw [heq] at hres
        exact absurd hres (by simp)
      | cons var tail =>
        rw [heq] at hres
        exact tryValues_sound_of P f (tryValue_sound_of P f ih) _ st var hres

theorem stA_values_length {st : SState α} (var : Nat) (value : α) :
    (setValue (save_domain st) var (some value)).values.length =
      st.values.length := by
  simp [setValue_values, save_domain_values]

theorem tryValue_fuelOk_of [DecidableEq α] (P : Problem α) (f : Nat)
    (hbt : ∀ st : SState α, unassignedCount st < f →
      (backtrackingFuel P f st).fuelOk = true) :
    ∀ (st : SState α) (var : Nat) (value : α), var < st.values.length →
      getVal st var = none → unassignedCount st < f + 1 →
      (tryValueFuel P f st var value).fuelOk = true := by
  intro st var value hvar hun hcount
  rw [tryValueFuel_eq]
  by_cases hcons :
      is_consistent P (setValue (save_domain st) var (some value)) var = true
  · rw [if_pos hcons]
    by_cases hfc :
        (forward_check P (setValue (save_domain st) var (some value)) var).1 = true
    · rw [if_pos hfc]
      have hcount2 : unassignedCount
          (forward_check P (setValue (save_domain st) var (some value)) var).2 < f := by
        rw [unassignedCount_values_eq (forward_check_values P _ var)]
        have := @unassignedCount_assign_lt _ _ _ value hvar hun
        omega
      by_cases hr : (backtrackingFuel P f
          (forward_check P (setValue (save_domain st) var (some value)) var).2).result = true
      · rw [if_pos hr]
        exact hbt _ hcount2
      · rw [if_neg hr]
        exact hbt _ hcount2
    · rw [if_neg hfc]
  · rw [if_neg hcons]

theorem tryValues_fuelOk_of [DecidableEq α] (P : Problem α) (f : Nat)
    (htv : ∀ (st : SState α) (var : Nat) (value : α), var < st.values.length →
      getVal st var = none → unassignedCount st < f + 1 →
      (tryValueFuel P f st var value).fuelOk = true) :
    ∀ (values : List α) (st : SState α) (var : Nat), var < st.values.length →
      getVal st var = none → unassignedCount st < f + 1 →
      (tryValuesFuel P f st var values).fuelOk = true := by
  intro values
  induction values with
  | nil =>
    intro st var _ _ _
    rw [tryValuesFuel_nil]
  | cons v rest ih =>
    intro st var hvar hun hcount
    rw [tryValuesFuel_cons]
    by_cases hr : (tryValueFuel P f st var v).result = true
    · rw [if_pos hr]
      exact htv st var v hvar hun hcount
    · rw [if_neg hr]
      have hrst : (tryValueFuel P f st var v).state = st :=
        tryValue_restore_of P f (backtracking_restore P f) st var v hun
          (by simpa using hr)
      simp only [hrst]
      rw [htv st var v hvar hun hcount, ih st var hvar hun hcount]
      rfl

/-- Fuel one above the number of unassigned variables never runs out:
the recursion depth of `backtracking` is bounded by the number of
unassigned variables. -/
theorem backtracking_fuelOk [DecidableEq α] (P : Problem α) :
    ∀ (f : Nat) (st : SState α), unassignedCount st < f →
      (backtrackingFuel P f st).fuelOk = true := by
  intro f
  induction f with
  | zero =>
    intro st hcount
    omega
  | succ f ih =>
    intro st hcount
    rw [backtrackingFuel_succ]
    by_cases hfin : is_finished P st = true
    · rw [if_pos hfin]
    · rw [if_neg hfin]
      cases heq : get_unassigned_variables st with
      | nil => rfl
      | cons var tail =>
        have hvar : var ∈ get_unassigned_variables st := by
          rw [heq]
          exact List.mem_cons_self _ _
        obtain ⟨hlt, hun⟩ := mem_get_unassigned.mp hvar
        exact tryValues_fuelOk_of P f (tryValue_fuelOk_of P f ih)
          _ st var hlt hun hcount

/-- Every constraint all of whose variables are currently assigned is
satisfied.  This holds initially (no constraint is fully assigned when
all variables start unassigned and each constraint governs a variable)
and is preserved by the search, because `is_consistent` checks a
constraint exactly when one of its variables is assigned. -/
def CheckedInv (P : Problem α) (st : SState α) : Prop :=
  ∀ c ∈ P.constraints, (∀ v ∈ c.vars, getVal st v ≠ none) → evalC st c = true

/-- Well-formedness from the claim: every constraint governs at least
one variable, and all its variables are problem variables. -/
def VarsWF (P : Problem α) (n : Nat) : Prop :=
  ∀ c ∈ P.constraints, c.vars ≠ [] ∧ ∀ v ∈ c.vars, v < n

theorem checkedInv_values_eq {P : Problem α} {st1 st2 : SState α}
    (h : st1.values = st2.values) (hci : CheckedInv P st1) :
    CheckedInv P st2 := by
  intro c hc hfull
  rw [← evalC_values_eq h c]
  exact hci c hc fun v hv => by
    rw [getVal_values_eq h v]
    exact hfull v hv

theorem checkedInv_assign [DecidableEq α] {P : Problem α} {st : SState α}
    {var : Nat} {value : α} (hci : CheckedInv P st)
    (hcons : is_consistent P (setValue (save_domain st) var (some value)) var = true) :
    CheckedInv P (setValue (save_domain st) var (some value)) := by
  intro c hc hfull
  by_cases hvc : var ∈ c.vars
  · rw [is_consistent, List.all_eq_true] at hcons
    exact hcons c (List.mem_filter.mpr ⟨hc, by simpa using hvc⟩)
  · have hvals : ∀ v ∈ c.vars,
        getVal (setValue (save_domain st) var (some value)) v = getVal st v := by
      intro v hv
      have hne : v ≠ var := fun h => hvc (h ▸ hv)
      rw [show getVal (setValue (save_domain st) var (some value)) v =
        getVal (save_domain st) v from getVal_setValue_ne _ _ hne]
      rfl
    rw [evalC_congr hvals]
    exact hci c hc fun v hv => by
      rw [← hvals v hv]
      exact hfull v hv

/-- If the checked invariant holds, every constraint governs a
variable, and all constraint variables are in range, then a state that
is not finished still has an unassigned variable — the indexing
`get_unassigned_variables()[0]` in `backtracking` cannot hit an empty
list. -/
theorem no_crash_step [DecidableEq α] {P : Problem α} {st : SState α}
    (hci : CheckedInv P st) (hwf : VarsWF P st.values.length)
    (hfin : is_finished P st = false) :
    get_unassigned_variables st ≠ [] := by
  intro hempty
  have hall : ∀ v, v < st.values.length → getVal st v ≠ none := by
    intro v hv hnone
    have : v ∈ get_unassigned_variables st := mem_get_unassigned.mpr ⟨hv, hnone⟩
    rw [hempty] at this
    cases this
  have hsat : ∀ c ∈ P.constraints, evalC st c = true := by
    intro c hc
    exact hci c hc fun v hv => hall v ((hwf c hc).2 v hv)
  have : is_finished P st = true := by
    rw [is_finished]
    rw [List.all_eq_true.mpr fun c hc => hsat c hc]
    simp [hempty]
  rw [this] at hfin
  cases hfin

theorem tryValue_safe_of [DecidableEq α] (P : Problem α) (f : Nat)
    (hbt : ∀ st : SState α, CheckedInv P st → VarsWF P st.values.length →
      (backtrackingFuel P f st).safe = true) :
    ∀ (st : SState α) (var : Nat) (value : α), CheckedInv P st →
      VarsWF P st.values.length →
      (tryValueFuel P f st var value).safe = true := by
  intro st var value hci hwf
  rw [tryValueFuel_eq]
  by_cases hcons :
      is_consistent P (setValue (save_domain st) var (some value)) var = true
  · rw [if_pos hcons]
    by_cases hfc :
        (forward_check P (setValue (save_domain st) var (some value)) var).1 = true
    · rw [if_pos hfc]
      have hciB : CheckedInv P
          (forward_check P (setValue (save_domain st) var (some value)) var).2 :=
        checkedInv_values_eq (forward_check_values P _ var).symm
          (checkedInv_assign hci hcons)
      have hwfB : VarsWF P (forward_check P
          (setValue (save_domain st) var (some value)) var).2.values.length := by
        rw [forward_check_values, stA_values_length]
        exact hwf
      by_cases hr : (backtrackingFuel P f
          (forward_check P (setValue (save_domain st) var (some value)) var).2).result = true
      · rw [if_pos hr]
        exact hbt _ hciB hwfB
      · rw [if_neg hr]
        exact hbt _ hciB hwfB
    · rw [if_neg hfc]
  · rw [if_neg hcons]

theorem tryValues_safe_of [DecidableEq α] (P : Problem α) (f : Nat)
    (htv : ∀ (st : SState α) (var : Nat) (value : α), CheckedInv P st →
      VarsWF P st.values.length → (tryValueFuel P f st var value).safe = true) :
    ∀ (values : List α) (st : SState α) (var : Nat), CheckedInv P st →
      VarsWF P st.values.length → getVal st var = none →
      (tryValuesFuel P f st var values).safe = true := by
  intro values
  induction values with
  | nil =>
    intro st var _ _ _
    rw [tryValuesFuel_nil]
  | cons v rest ih =>
    intro st var hci hwf hun
    rw [tryValuesFuel_cons]
    by_cases hr : (tryValueFuel P f st var v).result = true
    · rw [if_pos hr]
      exact htv st var v hci hwf
    · rw [if_neg hr]
      have hrst : (tryValueFuel P f st var v).state = st :=
        tryValue_restore_of P f (backtracking_restore P f) st var v hun
          (by simpa using hr)
      simp only [hrst]
      rw [htv st var v hci hwf, ih st var hci hwf hun]
      rfl

/-- `backtracking` never indexes the first unassigned variable out of an
empty list when the checked invariant holds and every constraint
governs at least one in-range variable. -/
theorem backtracking_safe [DecidableEq α] (P : Problem α) :
    ∀ (f : Nat) (st : SState α), CheckedInv P st →
      VarsWF P st.values.length → (backtrackingFuel P f st).safe = true := by
  intro f
  induction f with
  | zero =>
    intro st _ _
    rw [backtrackingFuel_zero]
  | succ f ih =>
    intro st hci hwf
    rw [backtrackingFuel_succ]
    by_cases hfin : is_finished P st = true
    · rw [if_pos hfin]
    · rw [if_neg hfin]
      cases heq : get_unassigned_variables st with
      | nil =>
        exact absurd heq (no_crash_step hci hwf (by simpa using hfin))
      | cons var tail =>
        have hvar : var ∈ get_unassigned_variables st := by
          rw [heq]
          exact List.mem_cons_self _ _
        exact tryValues_safe_of P f (tryValue_safe_of P f ih) _ st var hci hwf
          (mem_get_unassigned.mp hvar).2

/-- The final state of a successful search extends the starting state:
assigned values persist, and every newly assigned value was drawn from
the variable's domain in the starting state. -/
def StateExtends (st stF : SState α) : Prop :=
  stF.values.length = st.values.length ∧
  (∀ v x, getVal st v = some x → getVal stF v = some x) ∧
  (∀ v x, getVal st v = none → getVal stF v = some x → x ∈ getDomain st v)

theorem stateExtends_refl (st : SState α) : StateExtends st st := by
  refine ⟨rfl, fun v x h => h, fun v x h1 h2 => ?_⟩
  rw [h1] at h2
  cases h2

theorem tryValue_extract_of [DecidableEq α] (P : Problem α) (f : Nat)
    (hbt : ∀ st : SState α, (backtrackingFuel P f st).result = true →
      StateExtends st (backtrackingFuel P f st).state) :
    ∀ (st : SState α) (var : Nat) (value : α), value ∈ getDomain st var →
      getVal st var = none → var < st.values.length →
      (tryValueFuel P f st var value).result = true →
      StateExtends st (tryValueFuel P f st var value).state := by
  intro st var value hvd hun hvar hres
  rw [tryValueFuel_eq] at hres ⊢
  by_cases hcons :
      is_consistent P (setValue (save_domain st) var (some value)) var = true
  · rw [if_pos hcons] at hres ⊢
    by_cases hfc :
        (forward_check P (setValue (save_domain st) var (some value)) var).1 = true
    · rw [if_pos hfc] at hres ⊢
      by_cases hr : (backtrackingFuel P f
          (forward_check P (setValue (save_domain st) var (some value)) var).2).result = true
      · rw [if_pos hr] at hres ⊢
        obtain ⟨hlen, hkeep, hnew⟩ := hbt _ hr
        have hvB : ∀ v, getVal (forward_check P
            (setValue (save_domain st) var (some value)) var).2 v =
            getVal (setValue (save_domain st) var (some value)) v :=
          getVal_values_eq (forward_check_values P _ var)
        refine ⟨by rw [hlen, forward_check_values, stA_values_length], ?_, ?_⟩
        · intro v x hx
          have hvv : v ≠ var := by
            intro h
            rw [h, hun] at hx
            cases hx
          apply hkeep
          rw [hvB, show getVal (setValue (save_domain st) var (some value)) v =
            getVal (save_domain st) v from getVal_setValue_ne _ _ hvv]
          exact hx
        · intro v x h1 h2
          by_cases hvv : v = var
          · subst hvv
            have : getVal (forward_check P
                (setValue (save_domain st) v (some value)) v).2 v = some value := by
              rw [hvB]
              exact getVal_setValue_self _ _ (by simpa using hvar)
            have hx := hkeep v value this
            rw [hx] at h2
            cases h2
            exact hvd
          · have hB : getVal (forward_check P
                (setValue (save_domain st) var (some value)) var).2 v = none := by
              rw [hvB, show getVal (setValue (save_domain st) var (some value)) v =
                getVal (save_domain st) v from getVal_setValue_ne _ _ hvv]
              exact h1
            have hmem := hnew v x hB h2
            have hsub : getDomain (forward_check P
                (setValue (save_domain st) var (some value)) var).2 v ⊆
                getDomain (setValue (save_domain st) var (some value)) v :=
              fcGo_domains_subset P var _ _ v
            exact hsub hmem
      · rw [if_neg hr] at hres
        exact absurd hres (by simp)
    · rw [if_neg hfc] at hres
      exact absurd hres (by simp)
  · rw [if_neg hcons] at hres
    exact absurd hres (by simp)

theorem tryValues_extract_of [DecidableEq α] (P : Problem α) (f : Nat)
    (htv : ∀ (st : SState α) (var : Nat) (value : α), value ∈ getDomain st var →
      getVal st var = none → var < st.values.length →
      (tryValueFuel P f st var value).result = true →
      StateExtends st (tryValueFuel P f st var value).state) :
    ∀ (values : List α) (st : SState α) (var : Nat),
      (∀ x ∈ values, x ∈ getDomain st var) → getVal st var = none →
      var < st.values.length →
      (tryValuesFuel P f st var values).result = true →
      StateExtends st (tryValuesFuel P f st var values).state := by
  intro values
  induction values with
  | nil =>
    intro st var _ _ _ hres
    rw [tryValuesFuel_nil] at hres
    exact absurd hres (by simp)
  | cons v rest ih =>
    intro st var hdom hun hvar hres
    rw [tryValuesFuel_cons] at hres ⊢
    by_cases hr : (tryValueFuel P f st var v).result = true
    · rw [if_pos hr] at hres ⊢
      exact htv st var v (hdom v (List.mem_cons_self _ _)) hun hvar hr
    · rw [if_neg hr] at hres ⊢
      have hrst : (tryValueFuel P f st var v).state = st :=
        tryValue_restore_of P f (backtracking_restore P f) st var v hun
          (by simpa using hr)
      simp only [hrst] at hres ⊢
      exact ih st var (fun x hx => hdom x (List.mem_cons_of_mem _ hx)) hun hvar
        (by simpa using hres)

/-- Successful search extends the starting assignment, drawing each new
value from the starting domains. -/
theorem backtracking_extract [DecidableEq α] (P : Problem α) :
    ∀ (f : Nat) (st : SState α), (backtrackingFuel P f st).result = true →
      StateExtends st (backtrackingFuel P f st).state := by
  intro f
  induction f with
  | zero =>
    intro st hres
    rw [backtrackingFuel_zero] at hres
    exact absurd hres (by simp)
  | succ f ih =>
    intro st hres
    rw [backtrackingFuel_succ] at hres ⊢
    by_cases hfin : is_finished P st = true
    · rw [if_pos hfin] at hres ⊢
      exact stateExtends_refl st
    · rw [if_neg hfin] at hres ⊢
      cases heq : get_unassigned_variables st with
      | nil =>
        rw [heq] at hres
        exact absurd hres (by simp)
      | cons var tail =>
        rw [heq] at hres
        have hvar : var ∈ get_unassigned_variables st := by
          rw [heq]
          exact List.mem_cons_self _ _
        obtain ⟨hlt, hun⟩ := mem_get_unassigned.mp hvar
        exact tryValues_extract_of P f (tryValue_extract_of P f ih)
          _ st var (fun x hx => hx) hun hlt hres

/-- The constraint contract of the spec: `is_satisfied` must return
true on any partial assignment that some satisfying total assignment
extends ("must return true under partial assignment if a completion
could still exist"). -/
def Contract (c : Cst α) : Prop :=
  ∀ (pv : List (Option α)) (fv : List α),
    List.Forall₂ (fun o b => o = none ∨ o = some b) pv fv →
    c.pred (fv.map some) = true → c.pred pv = true

/-- `asn` is a total assignment that agrees with the current values,
draws unassigned variables' values from their current domains, and
satisfies every constraint. -/
def IsSolution (P : Problem α) (st : SState α) (asn : Nat → α) : Prop :=
  (∀ v x, getVal st v = some x → asn v = x) ∧
  (∀ v, v < st.values.length → getVal st v = none → asn v ∈ getDomain st v) ∧
  (∀ c ∈ P.constraints, c.pred (c.vars.map fun v => some (asn v)) = true)

theorem evalC_of_contract {c : Cst α} (hcontract : Contract c)
    {st : SState α} {asn : Nat → α}
    (hext : ∀ v ∈ c.vars, getVal st v = none ∨ getVal st v = some (asn v))
    (hsat : c.pred (c.vars.map fun v => some (asn v)) = true) :
    evalC st c = true := by
  unfold evalC
  apply hcontract (c.vars.map (getVal st)) (c.vars.map asn)
  · rw [List.forall₂_map_right_iff, List.forall₂_map_left_iff]
    rw [List.forall₂_same]
    exact hext
  · rw [List.map_map]
    exact hsat

theorem is_consistent_of_solution [DecidableEq α] {P : Problem α}
    {st : SState α} {asn : Nat → α} {var : Nat}
    (hC : ∀ c ∈ P.constraints, Contract c) (hsol : IsSolution P st asn)
    (hvar : var < st.values.length) :
    is_consistent P (setValue (save_domain st) var (some (asn var))) var = true := by
  rw [is_consistent, List.all_eq_true]
  intro c hc
  obtain ⟨hcP, -⟩ := List.mem_filter.mp hc
  refine evalC_of_contract (hC c hcP) ?_ (hsol.2.2 c hcP)
  intro v hv
  by_cases hvv : v = var
  · subst hvv
    right
    exact getVal_setValue_self _ _ (by simpa using hvar)
  · rw [show getVal (setValue (save_domain st) var (some (asn var))) v =
      getVal (save_domain st) v from getVal_setValue_ne _ _ hvv]
    cases hval : getVal st v with
    | none => left; exact hval
    | some x =>
      right
      rw [show getVal (save_domain st) v = getVal st v from rfl, hval,
        hsol.1 v x hval]

theorem fcGo_solution [DecidableEq α] {P : Problem α} {var : Nat}
    {asn : Nat → α} (hC : ∀ c ∈ P.constraints, Contract c)
    (hsat : ∀ c ∈ P.constraints, c.pred (c.vars.map fun v => some (asn v)) = true) :
    ∀ (nbs : List Nat) (st : SState α),
      (∀ nb ∈ nbs, nb < st.values.length) →
      (∀ v x, getVal st v = some x → asn v = x) →
      (∀ v, v < st.values.length → getVal st v = none → asn v ∈ getDomain st v) →
      (fcGo P var st nbs).1 = true ∧
      (∀ v, v < (fcGo P var st nbs).2.values.length →
        getVal (fcGo P var st nbs).2 v = none →
        asn v ∈ getDomain (fcGo P var st nbs).2 v) := by
  intro nbs
  induction nbs with
  | nil =>
    intro st _ _ hdom
    rw [fcGo_nil]
    exact ⟨rfl, hdom⟩
  | cons nb rest ih =>
    intro st hrange hagree hdom
    rw [fcGo_cons]
    split
    · exact ih st (fun x hx => hrange x (List.mem_cons_of_mem _ hx)) hagree hdom
    · rename_i hnbv
      have hnone : getVal st nb = none := by
        rw [hasValue, Option.isSome_iff_ne_none] at hnbv
        simpa using hnbv
      have hnblt : nb < st.values.length := hrange nb (List.mem_cons_self _ _)
      have hbad : violates st (get_constraints P var) nb (asn nb) = false := by
        rw [violates]
        refine List.any_eq_false.mpr ?_
        intro c hc hcontra
        obtain ⟨hcP, -⟩ := List.mem_filter.mp hc
        simp only [Bool.and_eq_true] at hcontra
        obtain ⟨h1, h2⟩ := hcontra
        have heval : evalC (setValue st nb (some (asn nb))) c = true := by
          refine evalC_of_contract (hC c hcP) ?_ (hsat c hcP)
          intro v hv
          by_cases hvnb : v = nb
          · subst hvnb
            right
            exact getVal_setValue_self _ _ (by simpa using hnblt)
          · rw [getVal_setValue_ne _ _ hvnb]
            cases hval : getVal st v with
            | none => left; rfl
            | some x =>
              right
              rw [hagree v x hval]
        rw [heval] at h2
        simp at h2
      have hmem : asn nb ∈
          fcLoop (violates st (get_constraints P var) nb) (getDomain st nb) 0 := by
        refine fcLoop_mem_of_not_bad _ hbad _ _ (hdom nb hnblt hnone)
      split
      · rename_i hempty
        rw [hempty] at hmem
        cases hmem
      · refine ih _ ?_ ?_ ?_
        · intro x hx
          have : (setDomain st nb (fcLoop (violates st (get_constraints P var) nb)
              (getDomain st nb) 0)).values = st.values := rfl
          rw [this]
          exact hrange x (List.mem_cons_of_mem _ hx)
        · intro v x hx
          exact hagree v x hx
        · intro v hlen hnv
          by_cases hvnb : v = nb
          · subst hvnb
            by_cases hdlt : v < st.domains.length
            · rw [getDomain_setDomain_self st _ hdlt]
              exact hmem
            · rw [setDomain_out_of_range st _ (by omega)]
              exact hdom v (by simpa using hlen) hnv
          · rw [getDomain_setDomain_ne st _ hvnb]
            exact hdom v (by simpa using hlen) hnv

/-- After a consistent trial assignment of the solution's own value and
the forward-checking narrowing, the solution still fits the narrowed
state. -/
theorem solution_after_fc [DecidableEq α] {P : Problem α} {st : SState α}
    {asn : Nat → α} {var : Nat} (hC : ∀ c ∈ P.constraints, Contract c)
    (hsol : IsSolution P st asn) (hvar : var < st.values.length) :
    (forward_check P (setValue (save_domain st) var (some (asn var))) var).1 = true ∧
    IsSolution P
      (forward_check P (setValue (save_domain st) var (some (asn var))) var).2 asn := by
  have hagreeA : ∀ v x,
      getVal (setValue (save_domain st) var (some (asn var))) v = some x →
      asn v = x := by
    intro v x hx
    by_cases hvv : v = var
    · subst hvv
      rw [getVal_setValue_self _ _ (by simpa using hvar)] at hx
      cases hx
      rfl
    · rw [show getVal (setValue (save_domain st) var (some (asn var))) v =
        getVal (save_domain st) v from getVal_setValue_ne _ _ hvv] at hx
      exact hsol.1 v x hx
  have hdomA : ∀ v, v < (setValue (save_domain st) var (some (asn var))).values.length →
      getVal (setValue (save_domain st) var (some (asn var))) v = none →
      asn v ∈ getDomain (setValue (save_domain st) var (some (asn var))) v := by
    intro v hlen hnv
    by_cases hvv : v = var
    · subst hvv
      rw [getVal_setValue_self _ _ (by simpa using hvar)] at hnv
      cases hnv
    · rw [show getVal (setValue (save_domain st) var (some (asn var))) v =
        getVal (save_domain st) v from getVal_setValue_ne _ _ hvv] at hnv
      exact hsol.2.1 v (by simpa [stA_values_length] using hlen) hnv
  have hrange : ∀ nb ∈ neighborsOf P
      (setValue (save_domain st) var (some (asn var))).values.length var,
      nb < (setValue (save_domain st) var (some (asn var))).values.length := by
    intro nb hnb
    have := List.mem_filter.mp hnb
    exact List.mem_range.mp this.1
  have hmain := @fcGo_solution _ _ _ var _ hC hsol.2.2 _ _ hrange hagreeA hdomA
  refine ⟨hmain.1, ?_, ?_, hsol.2.2⟩
  · intro v x hx
    refine hagreeA v x ?_
    rw [← getVal_values_eq (forward_check_values P _ var) v]
    exact hx
  · intro v hlen hnv
    exact hmain.2 v hlen hnv

/-- A solution at a state with no unassigned variable forces
`is_finished`. -/
theorem is_finished_of_solution [DecidableEq α] {P : Problem α}
    {st : SState α} {asn : Nat → α} (hC : ∀ c ∈ P.constraints, Contract c)
    (hsol : IsSolution P st asn)
    (hempty : get_unassigned_variables st = []) :
    is_finished P st = true := by
  rw [is_finished]
  have hsat : ∀ c ∈ P.constraints, evalC st c = true := by
    intro c hc
    refine evalC_of_contract (hC c hc) ?_ (hsol.2.2 c hc)
    intro v hv
    cases hval : getVal st v with
    | none => left; rfl
    | some x =>
      right
      rw [hsol.1 v x hval]
  rw [List.all_eq_true.mpr hsat]
  simp [hempty]

theorem tryValue_complete_of [DecidableEq α] (P : Problem α) (f : Nat)
    (asn : Nat → α) (hC : ∀ c ∈ P.constraints, Contract c)
    (hbt : ∀ st : SState α, IsSolution P st asn → unassignedCount st < f →
      (backtrackingFuel P f st).result = true) :
    ∀ st : SState α, ∀ var : Nat, IsSolution P st asn → getVal st var = none →
      var < st.values.length → unassignedCount st < f + 1 →
      (tryValueFuel P f st var (asn var)).result = true := by
  intro st var hsol hun hvar hcount
  rw [tryValueFuel_eq]
  have hcons := is_consistent_of_solution hC hsol hvar
  rw [if_pos hcons]
  obtain ⟨hfc, hsolB⟩ := solution_after_fc hC hsol hvar
  rw [if_pos hfc]
  have hcount2 : unassignedCount
      (forward_check P (setValue (save_domain st) var (some (asn var))) var).2 < f := by
    rw [unassignedCount_values_eq (forward_check_values P _ var)]
    have := @unassignedCount_assign_lt _ _ _ (asn var) hvar hun
    omega
  have hr := hbt _ hsolB hcount2
  rw [if_pos hr]
  exact hr

theorem tryValues_complete_of [DecidableEq α] (P : Problem α) (f : Nat)
    (asn : Nat → α)
    (htv : ∀ st : SState α, ∀ var : Nat, IsSolution P st asn →
      getVal st var = none → var < st.values.length → unassignedCount st < f + 1 →
      (tryValueFuel P f st var (asn var)).result = true) :
    ∀ (values : List α) (st : SState α) (var : Nat), IsSolution P st asn →
      getVal st var = none → var < st.values.length →
      unassignedCount st < f + 1 → asn var ∈ values →
      (tryValuesFuel P f st var values).result = true := by
  intro values
  induction values with
  | nil =>
    intro st var _ _ _ _ hmem
    cases hmem
  | cons v rest ih =>
    intro st var hsol hun hvar hcount hmem
    rw [tryValuesFuel_cons]
    by_cases hr : (tryValueFuel P f st var v).result = true
    · rw [if_pos hr]
      exact hr
    · rw [if_neg hr]
      by_cases hv : v = asn var
      · rw [hv] at hr
        exact absurd (htv st var hsol hun hvar hcount) hr
      · have hmem2 : asn var ∈ rest := by
          rcases List.mem_cons.mp hmem with h | h
          · exact absurd h.symm hv
          · exact h
        have hrst : (tryValueFuel P f st var v).state = st :=
          tryValue_restore_of P f (backtracking_restore P f) st var v hun
            (by simpa using hr)
        simp only [hrst]
        rw [ih st var hsol hun hvar hcount hmem2]

/-- Completeness of `backtracking`: under the constraint contract, if a
solution fits the current state, the search finds one. -/
theorem backtracking_complete [DecidableEq α] (P : Problem α) (asn : Nat → α)
    (hC : ∀ c ∈ P.constraints, Contract c) :
    ∀ (f : Nat) (st : SState α), IsSolution P st asn →
      unassignedCount st < f → (backtrackingFuel P f st).result = true := by
  intro f
  induction f with
  | zero =>
    intro st _ hcount
    omega
  | succ f ih =>
    intro st hsol hcount
    rw [backtrackingFuel_succ]
    by_cases hfin : is_finished P st = true
    · rw [if_pos hfin]
    · rw [if_neg hfin]
      cases heq : get_unassigned_variables st with
      | nil =>
        exact absurd (is_finished_of_solution hC hsol heq) hfin
      | cons var tail =>
        have hvar : var ∈ get_unassigned_variables st := by
          rw [heq]
          exact List.mem_cons_self _ _
        obtain ⟨hlt, hun⟩ := mem_get_unassigned.mp hvar
        exact tryValues_complete_of P f asn (tryValue_complete_of P f asn hC ih)
          _ st var hsol hun hlt hcount (hsol.2.1 var hlt hun)

/-- Binary constraint used to exhibit the forward-checking defect: it
rejects both value 0 and value 1 for variable 1. -/
def exFCcst : Cst Nat :=
  ⟨[0, 1], fun vs =>
    decide (vs.getD 1 none ≠ some 0) && decide (vs.getD 1 none ≠ some 1)⟩

def exFCP : Problem Nat := ⟨[exFCcst]⟩

/-- Variable 0 assigned, its neighbor 1 unassigned with domain
`[0, 1]`. -/
def exFCst : SState Nat := ⟨[some 5, none], [[5], [0, 1]], []⟩

theorem exFC_fcLoop :
    fcLoop (violates exFCst (get_constraints exFCP 0) 1) [0, 1] 0 = [1] := by
  rw [fcLoop]
  rw [dif_pos (by decide : (0 : Nat) < ([0, 1] : List Nat).length)]
  rw [if_pos (by decide)]
  rw [show ([0, 1] : List Nat).erase (([0, 1] : List Nat).get ⟨0, by decide⟩) =
    [1] from by decide]
  rw [fcLoop]
  rw [dif_neg (by decide : ¬ (1 : Nat) < ([1] : List Nat).length)]

/-- C3 (code defect): `forward_check` iterates `tmp` while removing
from it, so after value 0 of neighbor 1 is removed, value 1 — which
also violates the constraint — is skipped and survives in the
neighbor's domain, and the check returns `True` even though every
domain value of the neighbor is inconsistent.  Faithful forward
checking would remove both values and return `False`. -/
theorem forward_check_skips_value :
    (forward_check exFCP exFCst 0).1 = true ∧
    getDomain (forward_check exFCP exFCst 0).2 1 = [1] ∧
    violates exFCst (get_constraints exFCP 0) 1 1 = true ∧
    violates exFCst (get_constraints exFCP 0) 1 0 = true := by
  have hnb : neighborsOf exFCP exFCst.values.length 0 = [1] := by decide
  have hgo : forward_check exFCP exFCst 0 = fcGo exFCP 0 exFCst [1] := by
    rw [forward_check, hnb]
  rw [hgo, fcGo_cons, if_neg (by decide),
    show getDomain exFCst 1 = [0, 1] from rfl, exFC_fcLoop,
    if_neg (by decide), fcGo_nil]
  refine ⟨rfl, ?_, by decide, by decide⟩
  rfl

/-- Constraint that is satisfied only once both its variables are
assigned 1: it violates the spec's partial-consistency contract. -/
def exC4cst : Cst Nat :=
  ⟨[0, 1], fun vs =>
    decide (vs.getD 0 none = some 1) && decide (vs.getD 1 none = some 1)⟩

def exC4P : Problem Nat := ⟨[exC4cst]⟩

def exC4st : SState Nat := ⟨[none, none], [[1], [1]], []⟩

theorem exC4_tryValue :
    tryValueFuel exC4P 2 exC4st 0 1 = ⟨false, exC4st, true, true⟩ := by
  rw [tryValueFuel_eq, if_neg (by decide)]
  rfl

theorem exC4_run :
    backtrackingFuel exC4P 3 exC4st = ⟨false, exC4st, true, true⟩ := by
  rw [show (3 : Nat) = 2 + 1 from rfl, backtrackingFuel_succ,
    if_neg (by decide),
    show get_unassigned_variables exC4st = [0, 1] from by decide]
  change tryValuesFuel exC4P 2 exC4st 0 (getDomain exC4st 0) = _
  rw [show getDomain exC4st 0 = [1] from rfl, tryValuesFuel_cons, exC4_tryValue]
  rw [if_neg (by decide), tryValuesFuel_nil]
  rfl

/-- C4 (counterexample to the claim as stated): `exC4P` admits the
consistent total assignment `(1, 1)` from the initial domains, but the
solver rejects value 1 for variable 0 at the consistency check (the
constraint is false under the partial assignment) and terminates with
`False`, leaving both variables unassigned.  Hence "for every Problem
whose initial domains admit a consistent total assignment, solve
terminates with every Variable assigned" is false without the spec's
partial-consistency contract on constraints. -/
theorem solve_incomplete_without_contract :
    IsSolution exC4P exC4st (fun _ => 1) ∧
    (solve exC4P exC4st).result = false ∧
    (solve exC4P exC4st).state = exC4st := by
  refine ⟨⟨?_, ?_, ?_⟩, ?_, ?_⟩
  · intro v x h
    have hnone : getVal exC4st v = none := by
      rcases v with _ | _ | v <;> rfl
    rw [hnone] at h
    cases h
  · intro v hv _
    rcases v with _ | _ | v
    · decide
    · decide
    · have hlen : exC4st.values.length = 2 := rfl
      omega
  · intro c hc
    rcases List.mem_singleton.mp hc with rfl
    decide
  · rw [show (solve exC4P exC4st).result =
      (backtrackingFuel exC4P 3 exC4st).result from rfl, exC4_run]
  · rw [show (solve exC4P exC4st).state =
      (backtrackingFuel exC4P 3 exC4st).state from rfl, exC4_run]

theorem checkedInv_of_unassigned [DecidableEq α] {P : Problem α}
    {st : SState α} (hinit : ∀ v, getVal st v = none)
    (hwf : VarsWF P st.values.length) : CheckedInv P st := by
  intro c hc hfull
  obtain ⟨hne, -⟩ := hwf c hc
  cases hv : c.vars with
  | nil => exact absurd hv hne
  | cons v0 vtail =>
    exact absurd (hinit v0) (hfull v0 (by rw [hv]; exact List.mem_cons_self _ _))

/-- C4 (amended): for a Problem whose variables all start unassigned,
each of whose constraints governs at least one in-range variable and
satisfies the partial-consistency contract, `solve` terminates without
exhausting its recursion bound and without an indexing error; when some
total assignment drawn from the initial domains satisfies every
constraint it returns `True` with every variable assigned and every
constraint satisfied, and otherwise it returns `False` with the state —
in particular every variable unassigned — exactly as it started. -/
theorem solve_terminates_correct [DecidableEq α] [Inhabited α]
    (P : Problem α) (st : SState α) (hinit : ∀ v, getVal st v = none)
    (hwf : VarsWF P st.values.length)
    (hC : ∀ c ∈ P.constraints, Contract c) :
    (solve P st).fuelOk = true ∧ (solve P st).safe = true ∧
    ((∃ asn, IsSolution P st asn) →
      (solve P st).result = true ∧
      get_unassigned_variables (solve P st).state = [] ∧
      ∀ c ∈ P.constraints, evalC (solve P st).state c = true) ∧
    ((¬ ∃ asn, IsSolution P st asn) →
      (solve P st).result = false ∧ (solve P st).state = st) := by
  have hcount : unassignedCount st < st.values.length + 1 := by
    have := List.length_filter_le
      (fun v => (getVal st v).isNone) (List.range st.values.length)
    unfold unassignedCount get_unassigned_variables
    simp only [List.length_range] at this ⊢
    omega
  refine ⟨backtracking_fuelOk P _ st hcount,
    backtracking_safe P _ st (checkedInv_of_unassigned hinit hwf) hwf, ?_, ?_⟩
  · rintro ⟨asn, hsol⟩
    have hres := backtracking_complete P asn hC _ st hsol hcount
    have hfin := backtracking_sound P _ st hres
    rw [is_finished, Bool.and_eq_true] at hfin
    refine ⟨hres, by simpa using hfin.2, ?_⟩
    intro c hc
    exact List.all_eq_true.mp hfin.1 c hc
  · intro hno
    have hres : (solve P st).result = false := by
      by_contra hcontra
      have hres : (solve P st).result = true := by
        cases h : (solve P st).result
        · exact absurd h hcontra
        · rfl
      obtain ⟨hlen, hkeep, hnew⟩ := backtracking_extract P _ st hres
      have hfin := backtracking_sound P _ st hres
      rw [is_finished, Bool.and_eq_true] at hfin
      have hempty : get_unassigned_variables (solve P st).state = [] := by
        simpa using hfin.2
      refine hno ⟨fun v => (getVal (solve P st).state v).getD default, ?_, ?_, ?_⟩
      · intro v x h
        rw [hinit v] at h
        cases h
      · intro v hv _
        have hlenS : (solve P st).state.values.length = st.values.length := hlen
        have hvF : v < (solve P st).state.values.length := by omega
        have hassigned : getVal (solve P st).state v ≠ none := by
          intro hcontra2
          have : v ∈ get_unassigned_variables (solve P st).state :=
            mem_get_unassigned.mpr ⟨hvF, hcontra2⟩
          rw [hempty] at this
          cases this
        cases hy : getVal (solve P st).state v with
        | none => exact absurd hy hassigned
        | some y =>
          have := hnew v y (hinit v) hy
          simpa [hy] using this
      · intro c hc
        have hsatF : evalC (solve P st).state c = true :=
          List.all_eq_true.mp hfin.1 c hc
        rw [show c.pred (c.vars.map fun v =>
            some ((getVal (solve P st).state v).getD default)) =
            evalC (solve P st).state c from ?_]
        · exact hsatF
        · unfold evalC
          congr 1
          refine List.map_congr_left ?_
          intro v hv
          have hvlt : v < st.values.length := (hwf c hc).2 v hv
          have hlenS : (solve P st).state.values.length = st.values.length := hlen
          have hvF : v < (solve P st).state.values.length := by omega
          have hassigned : getVal (solve P st).state v ≠ none := by
            intro hcontra2
            have : v ∈ get_unassigned_variables (solve P st).state :=
              mem_get_unassigned.mpr ⟨hvF, hcontra2⟩
            rw [hempty] at this
            cases this
          cases hy : getVal (solve P st).state v with
          | none => exact absurd hy hassigned
          | some y => rfl
    exact ⟨hres, backtracking_restore P _ st hres⟩

/-- Trivially satisfiable one-variable problem used as a spot check. -/
def exOKcst : Cst Nat := ⟨[0], fun _ => true⟩

def exOKP : Problem Nat := ⟨[exOKcst]⟩

def exOKst : SState Nat := ⟨[none], [[0]], []⟩

theorem exOK_hyps :
    (∀ v, getVal exOKst v = none) ∧ VarsWF exOKP exOKst.values.length ∧
    (∀ c ∈ exOKP.constraints, Contract c) ∧
    IsSolution exOKP exOKst (fun _ => 0) := by
  have hwf : VarsWF exOKP exOKst.values.length := by
    intro c hc
    rcases List.mem_singleton.mp hc with rfl
    refine ⟨by decide, ?_⟩
    intro v hv
    rcases List.mem_singleton.mp hv with rfl
    decide
  refine ⟨fun v => by rcases v with _ | v <;> rfl, hwf, ?_, ?_, ?_, ?_⟩
  · intro c hc
    rcases List.mem_singleton.mp hc with rfl
    intro pv fv _ _
    rfl
  · intro v x h
    have hnone : getVal exOKst v = none := by rcases v with _ | v <;> rfl
    rw [hnone] at h
    cases h
  · intro v hv _
    rcases v with _ | v
    · decide
    · have hlen : exOKst.values.length = 1 := rfl
      omega
  · intro c hc
    rcases List.mem_singleton.mp hc with rfl
    rfl

/-- Witness for `solve_terminates_correct` on the one-variable
problem. -/
theorem solve_terminates_correct_spot :
    (solve exOKP exOKst).fuelOk = true ∧ (solve exOKP exOKst).safe = true ∧
    (solve exOKP exOKst).result = true := by
  obtain ⟨h1, h2, h3, h4⟩ := exOK_hyps
  obtain ⟨hf, hs, hsat, -⟩ := solve_terminates_correct exOKP exOKst h1 h2 h3
  obtain ⟨hres, -, -⟩ := hsat ⟨_, h4⟩
  exact ⟨hf, hs, hres⟩

/-- C7: a failed value trial restores every variable's domain to the
snapshot pushed onto the trail before the trial (`save_domain` pushes
`st.domains`, which sits at the head of the trial's trail), and in fact
restores the whole state, trail included. -/
theorem failed_trial_restores_snapshot [DecidableEq α] (P : Problem α)
    (f : Nat) (st : SState α) (var : Nat) (value : α)
    (hun : getVal st var = none)
    (hfail : (tryValueFuel P f st var value).result = false) :
    (save_domain st).back_up.head? =
      some (tryValueFuel P f st var value).state.domains ∧
    (tryValueFuel P f st var value).state = st := by
  have h := tryValue_restore_of P f (backtracking_restore P f) st var value
    hun hfail
  refine ⟨?_, h⟩
  rw [h, save_domain_back_up]
  rfl

/-- Witness for `failed_trial_restores_snapshot`: the trial of value 1
for variable 0 of the contract-violating example fails and
restores. -/
theorem failed_trial_restores_snapshot_spot :
    getVal exC4st 0 = none ∧
    (tryValueFuel exC4P 2 exC4st 0 1).result = false ∧
    (tryValueFuel exC4P 2 exC4st 0 1).state = exC4st := by
  have hfail : (tryValueFuel exC4P 2 exC4st 0 1).result = false := by
    rw [exC4_tryValue]
  exact ⟨rfl, hfail,
    (failed_trial_restores_snapshot exC4P 2 exC4st 0 1 rfl hfail).2⟩

/-- C10: when all variables start unassigned and every constraint
governs at least one in-range variable, `backtracking` never indexes
`get_unassigned_variables()[0]` on an empty list: whenever
`is_finished` is false at a recursive call, some variable is still
unassigned, because a constraint is fully checked the moment its last
variable is assigned. -/
theorem backtracking_never_indexes_empty [DecidableEq α] (P : Problem α)
    (st : SState α) (f : Nat) (hinit : ∀ v, getVal st v = none)
    (hwf : VarsWF P st.values.length) :
    (backtrackingFuel P f st).safe = true :=
  backtracking_safe P f st (checkedInv_of_unassigned hinit hwf) hwf

/-- Witness for `backtracking_never_indexes_empty` on the
contract-violating two-variable example (its constraints still each
govern an in-range variable). -/
theorem backtracking_never_indexes_empty_spot :
    (∀ v, getVal exC4st v = none) ∧ VarsWF exC4P exC4st.values.length ∧
    (backtrackingFuel exC4P 3 exC4st).safe = true := by
  have h1 : ∀ v, getVal exC4st v = none := fun v => by
    rcases v with _ | _ | v <;> rfl
  have hwf : VarsWF exC4P exC4st.values.length := by
    intro c hc
    rcases List.mem_singleton.mp hc with rfl
    refine ⟨by decide, ?_⟩
    intro v hv
    rcases List.mem_cons.mp hv with rfl | hv
    · decide
    · rcases List.mem_singleton.mp hv with rfl
      decide
  exact ⟨h1, hwf, backtracking_never_indexes_empty exC4P exC4st 3 h1 hwf⟩

/-- The invariant of the claim: every assigned variable's value belongs
to its current domain. -/
def Inv (st : SState α) : Prop :=
  ∀ v x, getVal st v = some x → x ∈ getDomain st v

mutual

/-- The states of the search after each operation of `backtracking`
(assignment, forward-checking narrowing, trail restore — the
`var.value = None` and `load_domain` undo steps are one combined
restore operation, as in the code's failure path), in execution
order. -/
def btTrace [DecidableEq α] (P : Problem α) : Nat → SState α → List (SState α)
  | 0, _ => []
  | f + 1, st =>
    if is_finished P st then []
    else
      match get_unassigned_variables st with
      | [] => []
      | var :: _ => tvsTrace P f st var (getDomain st var)
termination_by f _ => (f, 0, 0)

/-- States after each operation of one value trial: the assignment, the
forward-checking narrowing (when consistency passed), the nested search
states, and the restore on failure. -/
def tvTrace [DecidableEq α] (P : Problem α) (f : Nat) (st : SState α)
    (var : Nat) (value : α) : List (SState α) :=
  setValue (save_domain st) var (some value) ::
    (if is_consistent P (setValue (save_domain st) var (some value)) var then
      (forward_check P (setValue (save_domain st) var (some value)) var).2 ::
        (if (forward_check P (setValue (save_domain st) var (some value)) var).1 then
          btTrace P f
            (forward_check P (setValue (save_domain st) var (some value)) var).2 ++
            (if (backtrackingFuel P f (forward_check P
                (setValue (save_domain st) var (some value)) var).2).result then []
             else [load_domain (setValue (backtrackingFuel P f (forward_check P
                (setValue (save_domain st) var (some value)) var).2).state var none)])
        else [load_domain (setValue (forward_check P
          (setValue (save_domain st) var (some value)) var).2 var none)])
    else [load_domain (setValue
      (setValue (save_domain st) var (some value)) var none)])
termination_by (f, 0, 1)

/-- States of the value loop: each trial's states, then — after a
failure — the following trials from the restored state. -/
def tvsTrace [DecidableEq α] (P : Problem α) (f : Nat) :
    SState α → Nat → List α → List (SState α)
  | _, _, [] => []
  | st, var, value :: rest =>
    tvTrace P f st var value ++
      (if (tryValueFuel P f st var value).result then []
       else tvsTrace P f (tryValueFuel P f st var value).state var rest)
termination_by st var values => (f, 1, values.length + 1)

end

theorem btTrace_zero [DecidableEq α] (P : Problem α) (st : SState α) :
    btTrace P 0 st = [] := by
  rw [btTrace]

theorem btTrace_succ [DecidableEq α] (P : Problem α) (f : Nat) (st : SState α) :
    btTrace P (f + 1) st =
      if is_finished P st then []
      else
        match get_unassigned_variables st with
        | [] => []
        | var :: _ => tvsTrace P f st var (getDomain st var) := by
  rw [btTrace]

theorem tvTrace_eq [DecidableEq α] (P : Problem α) (f : Nat) (st : SState α)
    (var : Nat) (value : α) :
    tvTrace P f st var value =
      setValue (save_domain st) var (some value) ::
        (if is_consistent P (setValue (save_domain st) var (some value)) var then
          (forward_check P (setValue (save_domain st) var (some value)) var).2 ::
            (if (forward_check P (setValue (save_domain st) var (some value)) var).1 then
              btTrace P f
                (forward_check P (setValue (save_domain st) var (some value)) var).2 ++
                (if (backtrackingFuel P f (forward_check P
                    (setValue (save_domain st) var (some value)) var).2).result then []
                 else [load_domain (setValue (backtrackingFuel P f (forward_check P
                    (setValue (save_domain st) var (some value)) var).2).state var none)])
            else [load_domain (setValue (forward_check P
              (setValue (save_domain st) var (some value)) var).2 var none)])
        else [load_domain (setValue
          (setValue (save_domain st) var (some value)) var none)]) := by
  rw [tvTrace]

theorem tvsTrace_nil [DecidableEq α] (P : Problem α) (f : Nat) (st : SState α)
    (var : Nat) : tvsTrace P f st var [] = [] := by
  rw [tvsTrace]

theorem tvsTrace_cons [DecidableEq α] (P : Problem α) (f : Nat) (st : SState α)
    (var : Nat) (value : α) (rest : List α) :
    tvsTrace P f st var (value :: rest) =
      tvTrace P f st var value ++
        (if (tryValueFuel P f st var value).result then []
         else tvsTrace P f (tryValueFuel P f st var value).state var rest) := by
  rw [tvsTrace]

theorem setValue_out_of_range (st : SState α) {v : Nat} (x : Option α)
    (h : st.values.length ≤ v) : setValue st v x = st := by
  unfold setValue
  cases st with
  | mk vv dd bb =>
    simp only at h
    simp [List.set_eq_of_length_le h]

theorem inv_assign {st : SState α} {var : Nat} {value : α} (hinv : Inv st)
    (hdom : value ∈ getDomain st var) :
    Inv (setValue (save_domain st) var (some value)) := by
  intro v x h
  rw [show getDomain (setValue (save_domain st) var (some value)) v =
    getDomain st v from rfl]
  by_cases hvv : v = var
  · subst hvv
    by_cases hlt : v < st.values.length
    · rw [getVal_setValue_self _ _ (by simpa using hlt)] at h
      cases h
      exact hdom
    · rw [setValue_out_of_range _ _ (by
        rw [save_domain_values]
        omega)] at h
      exact hinv v x h
  · rw [getVal_setValue_ne _ _ hvv] at h
    exact hinv v x h

theorem inv_fcGo [DecidableEq α] (P : Problem α) (var : Nat) :
    ∀ (nbs : List Nat) (st : SState α), Inv st → Inv (fcGo P var st nbs).2 := by
  intro nbs
  induction nbs with
  | nil =>
    intro st hinv
    rw [fcGo_nil]
    exact hinv
  | cons nb rest ih =>
    intro st hinv
    rw [fcGo_cons]
    split
    · exact ih st hinv
    · rename_i hnb
      split
      · exact hinv
      · refine ih _ ?_
        intro v x h
        rw [getVal_setDomain] at h
        have hne : v ≠ nb := by
          intro hcontra
          subst hcontra
          rw [hasValue, Option.isSome_iff_ne_none] at hnb
          simp only [not_not] at hnb
          rw [hnb] at h
          cases h
        rw [getDomain_setDomain_ne st _ hne]
        exact hinv v x h

theorem tvTrace_inv_of [DecidableEq α] (P : Problem α) (f : Nat)
    (hbt : ∀ st : SState α, Inv st → ∀ s ∈ btTrace P f st, Inv s) :
    ∀ (st : SState α) (var : Nat) (value : α), Inv st →
      getVal st var = none → value ∈ getDomain st var →
      ∀ s ∈ tvTrace P f st var value, Inv s := by
  intro st var value hinv hun hdom s hs
  rw [tvTrace_eq] at hs
  have hinvA : Inv (setValue (save_domain st) var (some value)) :=
    inv_assign hinv hdom
  have hvA : (setValue (save_domain st) var (some value)).values =
      st.values.set var (some value) := rfl
  have hbA : (setValue (save_domain st) var (some value)).back_up =
      st.domains :: st.back_up := rfl
  rcases List.mem_cons.mp hs with rfl | hs2
  · exact hinvA
  · by_cases hcons :
        is_consistent P (setValue (save_domain st) var (some value)) var = true
    · rw [if_pos hcons] at hs2
      have hinvB : Inv (forward_check P
          (setValue (save_domain st) var (some value)) var).2 :=
        inv_fcGo P var _ _ hinvA
      rcases List.mem_cons.mp hs2 with rfl | hs3
      · exact hinvB
      · by_cases hfc :
            (forward_check P (setValue (save_domain st) var (some value)) var).1 = true
        · rw [if_pos hfc] at hs3
          rcases List.mem_append.mp hs3 with hs4 | hs4
          · exact hbt _ hinvB s hs4
          · by_cases hr : (backtrackingFuel P f (forward_check P
                (setValue (save_domain st) var (some value)) var).2).result = true
            · rw [if_pos hr] at hs4
              cases hs4
            · rw [if_neg hr] at hs4
              rcases List.mem_singleton.mp hs4 with rfl
              have hrst := backtracking_restore P f _ (by simpa using hr)
              rw [show load_domain (setValue (backtrackingFuel P f (forward_check P
                  (setValue (save_domain st) var (some value)) var).2).state var none) =
                  st from ?_]
              · exact hinv
              · refine @undo_eq _ _ _ value hun _ ?_ ?_
                · rw [hrst, forward_check_values, hvA]
                · rw [hrst, forward_check_back_up, hbA]
        · rw [if_neg hfc] at hs3
          rcases List.mem_singleton.mp hs3 with rfl
          rw [show load_domain (setValue (forward_check P
              (setValue (save_domain st) var (some value)) var).2 var none) =
              st from ?_]
          · exact hinv
          · refine @undo_eq _ _ _ value hun _ ?_ ?_
            · rw [forward_check_values, hvA]
            · rw [forward_check_back_up, hbA]
    · rw [if_neg hcons] at hs2
      rcases List.mem_singleton.mp hs2 with rfl
      rw [show load_domain (setValue
          (setValue (save_domain st) var (some value)) var none) = st from
        @undo_eq _ _ _ value hun _ hvA hbA]
      exact hinv

theorem tvsTrace_inv_of [DecidableEq α] (P : Problem α) (f : Nat)
    (htv : ∀ (st : SState α) (var : Nat) (value : α), Inv st →
      getVal st var = none → value ∈ getDomain st var →
      ∀ s ∈ tvTrace P f st var value, Inv s) :
    ∀ (values : List α) (st : SState α) (var : Nat), Inv st →
      getVal st var = none → (∀ x ∈ values, x ∈ getDomain st var) →
      ∀ s ∈ tvsTrace P f st var values, Inv s := by
  intro values
  induction values with
  | nil =>
    intro st var _ _ _ s hs
    rw [tvsTrace_nil] at hs
    cases hs
  | cons v rest ih =>
    intro st var hinv hun hdom s hs
    rw [tvsTrace_cons] at hs
    rcases List.mem_append.mp hs with hs1 | hs1
    · exact htv st var v hinv hun (hdom v (List.mem_cons_self _ _)) s hs1
    · by_cases hr : (tryValueFuel P f st var v).result = true
      · rw [if_pos hr] at hs1
        cases hs1
      · rw [if_neg hr] at hs1
        have hrst : (tryValueFuel P f st var v).state = st :=
          tryValue_restore_of P f (backtracking_restore P f) st var v hun
            (by simpa using hr)
        rw [hrst] at hs1
        exact ih st var hinv hun
          (fun x hx => hdom x (List.mem_cons_of_mem _ hx)) s hs1

/-- C9: starting from a state in which every assigned variable's value
belongs to its domain, the invariant holds at every state the search
passes through — after every assignment, after every forward-checking
narrowing, and after every trail restore. -/
theorem backtracking_inv_trace [DecidableEq α] (P : Problem α) :
    ∀ (f : Nat) (st : SState α), Inv st → ∀ s ∈ btTrace P f st, Inv s := by
  intro f
  induction f with
  | zero =>
    intro st _ s hs
    rw [btTrace_zero] at hs
    cases hs
  | succ f ih =>
    intro st hinv s hs
    rw [btTrace_succ] at hs
    by_cases hfin : is_finished P st = true
    · rw [if_pos hfin] at hs
      cases hs
    · rw [if_neg hfin] at hs
      cases heq : get_unassigned_variables st with
      | nil =>
        rw [heq] at hs
        cases hs
      | cons var tail =>
        rw [heq] at hs
        have hvar : var ∈ get_unassigned_variables st := by
          rw [heq]
          exact List.mem_cons_self _ _
        exact tvsTrace_inv_of P f (tvTrace_inv_of P f ih) _ st var hinv
          (mem_get_unassigned.mp hvar).2 (fun x hx => hx) s hs

/-- Witness for `backtracking_inv_trace`: from the all-unassigned
one-variable state (where the invariant holds vacuously), every traced
state keeps it. -/
theorem backtracking_inv_trace_spot :
    Inv exOKst ∧ ∀ s ∈ btTrace exOKP 2 exOKst, Inv s := by
  have hinv : Inv exOKst := by
    intro v x h
    have hnone : getVal exOKst v = none := by rcases v with _ | v <;> rfl
    rw [hnone] at h
    cases h
  exact ⟨hinv, backtracking_inv_trace exOKP 2 exOKst hinv⟩

end CSP

namespace FastNonogram

open Nonogram

/-- A `NonogramConstraint` as seen by `FastNonogramSolver`: the indices
of its line's variables and its clue. -/
structure NC where
  vars : List Nat
  clue : List Nat
deriving DecidableEq

/-- `NonogramConstraint.min_length` as computed in `__init__`. -/
def min_length (clue : List Nat) : Nat :=
  if clue = [] then 0 else clue.sum + clue.length - 1

/-- The state of the fast solver is just each variable's value (it
never touches domains); `lineVals` is `[v.value for v in
constraint.variables]`. -/
def lineVals (values : List Cell) (c : NC) : List Cell :=
  c.vars.map (fun v => values.getD v none)

/-- `constraint.is_satisfied()` — the `NonogramConstraint` check. -/
def ncSat (values : List Cell) (c : NC) : Bool :=
  Nonogram.is_satisfied c.clue (lineVals values c)

/-- Translation of `_generate_all_valid_lines`: the recursive helper
`place_blocks` has an unimplemented body (`#TODO: Implement Here!
(complete the logic for placing blocks recursively)`), so nothing is
ever appended to `valid_lines` and the function returns the empty
list. -/
def generate_all_valid_lines (current : List Cell) (clue : List Nat)
    (n : Nat) : List (List Cell) :=
  []

/-- Translation of `_find_definite_cells`.  An empty clue makes every
currently unassigned cell definite-empty.  Otherwise the enumerated
valid lines (always `[]`, by the stub above) trigger the contradiction
branch returning two empty sets; and even when lines existed, the
source's `definite_filled.union(i)` / `definite_empty.union(i)` calls
discard their results, so the intersection loop adds nothing either
way. -/
def find_definite_cells (current : List Cell) (clue : List Nat)
    (n : Nat) : List Nat × List Nat :=
  if clue = [] then
    ([], (List.range n).filter (fun i => current.getD i none = none))
  else if generate_all_valid_lines current clue n = [] then ([], [])
  else ([], [])

/-- The assignment loops of `_solve_line` over one definite set: for
each line position `idx`, if `variables[idx]` is still unassigned, set
it and record the change. -/
def assignFold (vars : List Nat) (b : Bool) (idxs : List Nat)
    (acc : Bool × List Cell) : Bool × List Cell :=
  idxs.foldl (fun acc idx =>
    if acc.2.getD (vars.getD idx 0) none = none then
      (true, acc.2.set (vars.getD idx 0) (some b))
    else acc) acc

/-- Translation of `FastNonogramSolver._solve_line`: nothing to do on a
fully assigned line; otherwise assign the definite-filled then the
definite-empty cells, returning whether anything changed. -/
def solve_line (values : List Cell) (c : NC) : Bool × List Cell :=
  if ¬ (lineVals values c).contains none then (false, values)
  else
    let dfde := find_definite_cells (lineVals values c) c.clue c.vars.length
    assignFold c.vars false dfde.2
      (assignFold c.vars true dfde.1 (false, values))

/-- One full pass of the phase-1 loop over all constraints, threading
the `changed` flag. -/
def pass1 (cs : List NC) (values : List Cell) : Bool × List Cell :=
  cs.foldl (fun acc c =>
    ((solve_line acc.2 c).1 || acc.1, (solve_line acc.2 c).2)) (false, values)

/-- The phase-1 `while changed` loop of `FastNonogramSolver.solve`,
with its pass counter `iterations`: after each pass it stops when all
cells are assigned, when `iterations > 100`, or when the pass made no
change.  The fuel argument only bounds the modelled recursion; the
caller passes more than the cap can consume. -/
def propagate (cs : List NC) : Nat → List Cell → Nat → List Cell × Nat
  | 0, values, iterations => (values, iterations)
  | fuel + 1, values, iterations =>
    if ¬ (pass1 cs values).2.contains none then
      ((pass1 cs values).2, iterations + 1)
    else if iterations + 1 > 100 then ((pass1 cs values).2, iterations + 1)
    else if (pass1 cs values).1 then
      propagate cs fuel (pass1 cs values).2 (iterations + 1)
    else ((pass1 cs values).2, iterations + 1)

/-- The unassigned variables, in problem order. -/
def unassignedVars (values : List Cell) : List Nat :=
  (List.range values.length).filter (fun v => values.getD v none = none)

/-- Translation of `FastNonogramSolver._forward_check`: for every
constraint involving `var`, every unassigned variable of the constraint
must admit some value in `{0, 1}` keeping the constraint
satisfiable. -/
def fn_forward_check (cs : List NC) (values : List Cell) (var : Nat) : Bool :=
  (cs.filter (fun c => decide (var ∈ c.vars))).all (fun c =>
    (c.vars.filter (fun v => values.getD v none = none)).all (fun v =>
      ncSat (values.set v (some false)) c || ncSat (values.set v (some true)) c))

/-- The capped (3 rounds) propagation interleaved inside `_backtrack`. -/
def prop3 (cs : List NC) : Nat → List Cell → List Cell
  | 0, values => values
  | k + 1, values =>
    if (pass1 cs values).1 then prop3 cs k (pass1 cs values).2
    else (pass1 cs values).2

/-- `all(c.is_satisfied() for c in related_constraints)` inside
`_backtrack`. -/
def relatedOk (cs : List NC) (values : List Cell) (var : Nat) : Bool :=
  (cs.filter (fun c => decide (var ∈ c.vars))).all (ncSat values)

/-- Result of `FastNonogramSolver._backtrack`: the boolean, the final
values (note: cells assigned by the interleaved propagation are *not*
undone on failure — only `var.value = None` is), and a flag recording
that the modelled fuel sufficed. -/
structure FbResult where
  result : Bool
  values : List Cell
  fuelOk : Bool

/-- Translation of `FastNonogramSolver._backtrack` (the MRV/LCV hooks
are unimplemented stubs; the code takes the first unassigned variable
and the fixed order `[0, 1]`). -/
def fastBacktrack (cs : List NC) : Nat → List Cell → FbResult
  | 0, values => ⟨false, values, false⟩
  | fuel + 1, values =>
    match unassignedVars values with
    | [] => ⟨cs.all (ncSat values), values, true⟩
    | var :: _ =>
      let r0 :=
        if relatedOk cs (values.set var (some false)) var &&
            fn_forward_check cs (values.set var (some false)) var then
          fastBacktrack cs fuel (prop3 cs 3 (values.set var (some false)))
        else ⟨false, values.set var (some false), true⟩
      if r0.result then r0
      else
        let values0 := r0.values.set var none
        let r1 :=
          if relatedOk cs (values0.set var (some true)) var &&
              fn_forward_check cs (values0.set var (some true)) var then
            fastBacktrack cs fuel (prop3 cs 3 (values0.set var (some true)))
          else ⟨false, values0.set var (some true), true⟩
        if r1.result then r1
        else ⟨false, r1.values.set var none, r0.fuelOk && r1.fuelOk⟩

/-- `FastNonogramSolver.solve` (timing and printing are I/O and not
modelled): phase-1 propagation, the final check, and the `_backtrack`
fallback; returns the boolean result, the final values and the number
of propagation passes executed. -/
def fastSolve (cs : List NC) (values : List Cell) : Bool × List Cell × Nat :=
  let p := propagate cs 102 values 0
  if ¬ p.1.contains none && cs.all (ncSat p.1) then (true, p.1, p.2)
  else
    let r := fastBacktrack cs (p.1.length + 1) p.1
    (r.result, r.values, p.2)

theorem contains_none_eq_false {l : List Cell} (h : ∀ x ∈ l, x ≠ none) :
    l.contains none = false := by
  cases hc : l.contains none
  · rfl
  · exact absurd rfl (h none (List.mem_of_elem_eq_true hc))

theorem ne_none_of_contains_none_eq_false {l : List Cell}
    (h : l.contains none = false) {x : Cell} (hx : x ∈ l) : x ≠ none := by
  rintro rfl
  rw [show l.contains none = l.elem none from rfl,
    List.elem_eq_true_of_mem hx] at h
  cases h

theorem assignFold_length (vars : List Nat) (b : Bool) (idxs : List Nat)
    (acc : Bool × List Cell) :
    (assignFold vars b idxs acc).2.length = acc.2.length := by
  induction idxs generalizing acc with
  | nil => rfl
  | cons idx rest ih =>
    rw [assignFold, List.foldl_cons]
    split
    · exact Eq.trans (ih (true, acc.2.set (vars.getD idx 0) (some b))) (by simp)
    · exact ih acc

theorem solve_line_length (values : List Cell) (c : NC) :
    (solve_line values c).2.length = values.length := by
  rw [solve_line]
  split
  · rfl
  · rw [assignFold_length, assignFold_length]

theorem pass1_go_length :
    ∀ (cs : List NC) (acc : Bool × List Cell),
      (cs.foldl (fun acc c =>
        ((solve_line acc.2 c).1 || acc.1, (solve_line acc.2 c).2)) acc).2.length =
        acc.2.length := by
  intro cs
  induction cs with
  | nil => intro acc; rfl
  | cons c rest ih =>
    intro acc
    rw [List.foldl_cons]
    exact Eq.trans (ih _) (solve_line_length _ _)

theorem pass1_length (cs : List NC) (values : List Cell) :
    (pass1 cs values).2.length = values.length :=
  pass1_go_length cs (false, values)

theorem propagate_length (cs : List NC) :
    ∀ (fuel : Nat) (values : List Cell) (iterations : Nat),
      (propagate cs fuel values iterations).1.length = values.length := by
  intro fuel
  induction fuel with
  | zero => intro values iterations; rfl
  | succ fuel ih =>
    intro values iterations
    rw [propagate]
    split
    · exact pass1_length cs values
    · split
      · exact pass1_length cs values
      · split
        · rw [ih]
          exact pass1_length cs values
        · exact pass1_length cs values

theorem assignFold_keeps {vars : List Nat} {b : Bool} {v : Nat} {x : Bool} :
    ∀ (idxs : List Nat) (acc : Bool × List Cell),
      acc.2.getD v none = some x →
      (assignFold vars b idxs acc).2.getD v none = some x := by
  intro idxs
  induction idxs with
  | nil => intro acc h; exact h
  | cons idx rest ih =>
    intro acc h
    rw [assignFold, List.foldl_cons]
    by_cases hguard : acc.2.getD (vars.getD idx 0) none = none
    · rw [if_pos hguard]
      refine ih _ ?_
      have hne : v ≠ vars.getD idx 0 := by
        intro hcontra
        rw [hcontra, hguard] at h
        cases h
      show ((acc.2.set (vars.getD idx 0) (some b)).getD v none) = some x
      rw [List.getD, List.get?_eq_getElem?, List.getElem?_set_ne (by omega)]
      rw [List.getD, List.get?_eq_getElem?] at h
      exact h
    · rw [if_neg hguard]
      exact ih acc h

theorem solve_line_keeps {values : List Cell} {c : NC} {v : Nat} {x : Bool}
    (h : values.getD v none = some x) :
    (solve_line values c).2.getD v none = some x := by
  rw [solve_line]
  split
  · exact h
  · exact assignFold_keeps _ _ (assignFold_keeps _ _ h)

theorem getD_set_self_cell {l : List Cell} {v : Nat} (b : Bool)
    (h : v < l.length) : (l.set v (some b)).getD v none = some b := by
  rw [List.getD, List.get?_eq_getElem?, List.getElem?_set_self h]
  rfl

theorem assignFold_covers {vars : List Nat} {b : Bool} :
    ∀ (idxs : List Nat) (acc : Bool × List Cell),
      (∀ idx ∈ idxs, vars.getD idx 0 < acc.2.length) →
      ∀ idx ∈ idxs, (assignFold vars b idxs acc).2.getD (vars.getD idx 0) none ≠ none := by
  intro idxs
  induction idxs with
  | nil =>
    intro acc _ idx hidx
    cases hidx
  | cons i rest ih =>
    intro acc hrange idx hidx
    rw [assignFold, List.foldl_cons]
    have hlen : ∀ acc2 : Bool × List Cell, acc2.2.length = acc.2.length →
        (∀ j ∈ rest, vars.getD j 0 < acc2.2.length) := by
      intro acc2 hl j hj
      rw [hl]
      exact hrange j (List.mem_cons_of_mem _ hj)
    rcases List.mem_cons.mp hidx with rfl | hidx2
    · by_cases hguard : acc.2.getD (vars.getD idx 0) none = none
      · rw [if_pos hguard]
        have hset : ((acc.2.set (vars.getD idx 0) (some b))).getD
            (vars.getD idx 0) none = some b :=
          getD_set_self_cell b (hrange idx (List.mem_cons_self _ _))
        have := @assignFold_keeps vars b _ _ rest
          (true, acc.2.set (vars.getD idx 0) (some b)) hset
        rw [show assignFold vars b rest
          (true, acc.2.set (vars.getD idx 0) (some b)) =
          List.foldl _ (true, acc.2.set (vars.getD idx 0) (some b)) rest from rfl] at this
        rw [this]
        simp
      · rw [if_neg hguard]
        cases hval : acc.2.getD (vars.getD idx 0) none with
        | none => exact absurd hval hguard
        | some y =>
          have := @assignFold_keeps vars b _ _ rest acc hval
          rw [show assignFold vars b rest acc =
            List.foldl _ acc rest from rfl] at this
          rw [this]
          simp
    · by_cases hguard : acc.2.getD (vars.getD i 0) none = none
      · rw [if_pos hguard]
        exact ih _ (hlen _ (by simp)) idx hidx2
      · rw [if_neg hguard]
        exact ih _ (hlen _ rfl) idx hidx2

theorem lineVals_getD {values : List Cell} {c : NC} {idx : Nat}
    (h : idx < c.vars.length) :
    (lineVals values c).getD idx none = values.getD (c.vars.getD idx 0) none := by
  unfold lineVals
  rw [List.getD, List.get?_eq_getElem?, List.getElem?_map,
    List.getElem?_eq_getElem h]
  simp only [Option.map_some', Option.getD_some]
  congr 1
  rw [List.getD, List.get?_eq_getElem?, List.getElem?_eq_getElem h]
  rfl

theorem mem_lineVals {values : List Cell} {c : NC} {v : Nat}
    (hv : v ∈ c.vars) : values.getD v none ∈ lineVals values c :=
  List.mem_map_of_mem _ hv

theorem getD_eq_get {γ : Type} (l : List γ) (d : γ) {idx : Nat}
    (h : idx < l.length) : l.getD idx d = l.get ⟨idx, h⟩ := by
  rw [List.getD, List.get?_eq_getElem?, List.getElem?_eq_getElem h]
  rfl

theorem solve_line_full_empty {values : List Cell} {c : NC}
    (hclue : c.clue = []) (hrange : ∀ v ∈ c.vars, v < values.length) :
    ∀ v ∈ c.vars, (solve_line values c).2.getD v none ≠ none := by
  intro v hv
  rw [solve_line]
  by_cases hcont : (lineVals values c).contains none = true
  · rw [if_neg (not_not_intro hcont)]
    rw [show find_definite_cells (lineVals values c) c.clue c.vars.length =
      ([], (List.range c.vars.length).filter
        (fun i => decide ((lineVals values c).getD i none = none))) from by
      rw [find_definite_cells, hclue]
      simp]
    dsimp only
    rw [show assignFold c.vars true [] (false, values) = (false, values) from rfl]
    obtain ⟨⟨idx, hidx⟩, hget⟩ := List.mem_iff_get.mp hv
    have hgetD : c.vars.getD idx 0 = v := by
      rw [getD_eq_get c.vars 0 hidx, hget]
    cases hcell : values.getD v none with
    | none =>
      have hmemde : idx ∈ (List.range c.vars.length).filter
          (fun i => decide ((lineVals values c).getD i none = none)) := by
        rw [List.mem_filter, List.mem_range]
        refine ⟨hidx, by
          rw [lineVals_getD hidx, hgetD, hcell]
          simp⟩
      have hcov := @assignFold_covers c.vars false _
        (false, values) ?_ idx hmemde
      · rw [hgetD] at hcov
        exact hcov
      · intro j hj
        obtain ⟨hjr, -⟩ := List.mem_filter.mp hj
        have hjlt : j < c.vars.length := List.mem_range.mp hjr
        show c.vars.getD j 0 < values.length
        rw [getD_eq_get c.vars 0 hjlt]
        exact hrange _ (List.get_mem _ _ _)
    | some x =>
      have := @assignFold_keeps c.vars false _ _
        ((List.range c.vars.length).filter
          (fun i => decide ((lineVals values c).getD i none = none)))
        (false, values) hcell
      rw [this]
      simp
  · rw [if_pos hcont]
    intro hnone
    exact absurd (List.elem_eq_true_of_mem
      (hnone ▸ mem_lineVals hv)) (by simpa using hcont)

theorem solve_line_nonempty_clue {values : List Cell} {c : NC}
    (hclue : c.clue ≠ []) : solve_line values c = (false, values) := by
  rw [solve_line]
  split
  · rfl
  · rw [show find_definite_cells (lineVals values c) c.clue c.vars.length =
      ([], []) from by
      rw [find_definite_cells, if_neg hclue]
      split <;> rfl]
    rfl

theorem pass1_go_keeps {v : Nat} {x : Bool} :
    ∀ (cs : List NC) (acc : Bool × List Cell),
      acc.2.getD v none = some x →
      (cs.foldl (fun acc c =>
        ((solve_line acc.2 c).1 || acc.1,
          (solve_line acc.2 c).2)) acc).2.getD v none = some x := by
  intro cs
  induction cs with
  | nil => intro acc h; exact h
  | cons c rest ih =>
    intro acc h
    rw [List.foldl_cons]
    exact ih _ (solve_line_keeps h)

theorem pass1_go_full {c0 : NC} (hclue : c0.clue = []) :
    ∀ (cs : List NC) (acc : Bool × List Cell),
      c0 ∈ cs →
      (∀ v ∈ c0.vars, v < acc.2.length) →
      ∀ v ∈ c0.vars,
        (cs.foldl (fun acc c =>
          ((solve_line acc.2 c).1 || acc.1,
            (solve_line acc.2 c).2)) acc).2.getD v none ≠ none := by
  intro cs
  induction cs with
  | nil => intro acc hmem; cases hmem
  | cons c rest ih =>
    intro acc hmem hrange v hv
    rw [List.foldl_cons]
    rcases List.mem_cons.mp hmem with rfl | hmem'
    · have hfull := solve_line_full_empty hclue hrange v hv
      rcases hx : (solve_line acc.2 c0).2.getD v none with _ | x
      · exact absurd hx hfull
      · have hsome := pass1_go_keeps rest
          ((solve_line acc.2 c0).1 || acc.1, (solve_line acc.2 c0).2) hx
        rw [hsome]
        simp
    · refine ih _ hmem' ?_ v hv
      intro w hw
      show w < (solve_line acc.2 c).2.length
      rw [solve_line_length]
      exact hrange w hw

theorem pass1_full {cs : List NC} {values : List Cell}
    (hrange : ∀ c ∈ cs, ∀ v ∈ c.vars, v < values.length) :
    ∀ c ∈ cs, c.clue = [] → ∀ v ∈ c.vars,
      (pass1 cs values).2.getD v none ≠ none := by
  intro c hc hclue v hv
  exact pass1_go_full hclue cs (false, values) hc (hrange c hc) v hv

theorem pass1_go_noop :
    ∀ (cs : List NC) (acc : Bool × List Cell),
      (∀ c ∈ cs, solve_line acc.2 c = (false, acc.2)) →
      cs.foldl (fun acc c =>
        ((solve_line acc.2 c).1 || acc.1,
          (solve_line acc.2 c).2)) acc = acc := by
  intro cs
  induction cs with
  | nil => intro acc _; rfl
  | cons c rest ih =>
    intro acc h
    rw [List.foldl_cons]
    have hstep : ((solve_line acc.2 c).1 || acc.1, (solve_line acc.2 c).2)
        = acc := by
      rw [h c (by simp)]
      simp
    rw [hstep]
    exact ih acc (fun c' hc' => h c' (by simp [hc']))

theorem pass1_noop {cs : List NC} {values : List Cell}
    (h : ∀ c ∈ cs, c.clue = [] → ∀ v ∈ c.vars, values.getD v none ≠ none) :
    pass1 cs values = (false, values) := by
  rw [pass1]
  refine pass1_go_noop cs (false, values) ?_
  intro c hc
  by_cases hclue : c.clue = []
  · have hcont : ¬ (lineVals values c).contains none = true := by
      intro hmem
      have hin := List.mem_of_elem_eq_true hmem
      rw [lineVals] at hin
      obtain ⟨w, hw, hwn⟩ := List.mem_map.mp hin
      exact h c hc hclue w hw hwn
    rw [solve_line, if_pos hcont]
  · exact solve_line_nonempty_clue hclue

/-- The successor unfolding of the phase-1 loop `propagate`. -/
theorem propagate_succ (cs : List NC) (fuel : Nat) (values : List Cell)
    (iterations : Nat) :
    propagate cs (fuel + 1) values iterations =
      if ¬ (pass1 cs values).2.contains none then
        ((pass1 cs values).2, iterations + 1)
      else if iterations + 1 > 100 then ((pass1 cs values).2, iterations + 1)
      else if (pass1 cs values).1 then
        propagate cs fuel (pass1 cs values).2 (iterations + 1)
      else ((pass1 cs values).2, iterations + 1) := rfl

theorem propagate_count_le {cs : List NC} {values : List Cell}
    (hrange : ∀ c ∈ cs, ∀ v ∈ c.vars, v < values.length) (fuel : Nat) :
    (propagate cs (fuel + 2) values 0).2 ≤ 2 := by
  rw [show fuel + 2 = (fuel + 1) + 1 from rfl, propagate_succ]
  split
  · exact one_le_two
  · split
    · exact one_le_two
    · split
      · rw [propagate_succ]
        have hp : pass1 cs (pass1 cs values).2 = (false, (pass1 cs values).2) :=
          pass1_noop (pass1_full hrange)
        rw [hp]
        split
        · exact le_refl 2
        · split
          · exact le_refl 2
          · split
            · exact absurd (by assumption) (by simp)
            · exact le_refl 2
      · exact one_le_two

/-- **C8.** The phase-1 propagation loop of `FastNonogramSolver.solve`
repeats full passes only until a pass makes no change, until every cell is
assigned, or until the 100-pass cap trips (these are exactly the exit tests
of `propagate`); and under the faithfulness condition that every
constraint's variable indices address actual cells of the grid, the number
of propagation passes `solve` executes never exceeds 100 — indeed the
stubbed line enumeration makes every second pass changeless, so at most two
passes ever run, well inside the cap (the cap test `iterations > 100` alone
would admit a 101st pass, but no run reaches it). -/
theorem fast_solve_pass_bound (cs : List NC) (values : List Cell)
    (hrange : ∀ c ∈ cs, ∀ v ∈ c.vars, v < values.length) :
    (fastSolve cs values).2.2 ≤ 100 := by
  have h : (propagate cs 102 values 0).2 ≤ 2 := propagate_count_le hrange 100
  rw [fastSolve]
  dsimp only
  split
  · exact le_trans h (by norm_num)
  · exact le_trans h (by norm_num)

/-- **C6.** Refuted as a code bug: on a fully unassigned length-3 line with
clue `[3]`, the unique valid completion is `[true, true, true]`, so the
definite-filled set demanded by the claim is `{0, 1, 2}`; but
`_find_definite_cells` returns two empty sets, because the stubbed
`place_blocks` enumerates no valid lines (triggering the contradiction
branch), and even past that branch the discarded `set.union` results would
add nothing.  Hence `_solve_line` assigns no definite cell either. -/
theorem find_definite_cells_defective :
    find_definite_cells [none, none, none] [3] 3 = ([], []) ∧
      (Extends [none, none, none] [true, true, true] ∧
        runLengths [true, true, true] = [3]) ∧
      (∀ l, Extends [none, none, none] l →
        runLengths l = [3] → l = [true, true, true]) := by
  refine ⟨rfl, ⟨by decide, ?_⟩, ?_⟩
  · rw [← blocks_eq_runLengths]
    decide
  · intro l hext hrun
    have hlen : l.length = 3 := (extends_length_eq hext).symm
    rw [← blocks_eq_runLengths] at hrun
    rcases l with _ | ⟨a, _ | ⟨b, _ | ⟨c, _ | ⟨d, t⟩⟩⟩⟩ <;> simp at hlen
    cases a <;> cases b <;> cases c <;> revert hrun <;> decide

/-- Spot check of `fast_solve_pass_bound` on a one-cell puzzle with a
single empty-clue row. -/
theorem fast_solve_pass_bound_spot :
    (∀ c ∈ [NC.mk [0] []], ∀ v ∈ c.vars, v < [(none : Cell)].length) ∧
      (fastSolve [NC.mk [0] []] [none]).2.2 ≤ 100 :=
  ⟨by decide, fast_solve_pass_bound [NC.mk [0] []] [none] (by decide)⟩

theorem blocksAux_sum_add_length_le :
    ∀ (l : List Bool) (cur : Nat),
      (blocksAux l cur).sum + (blocksAux l cur).length ≤ l.length + cur + 1 := by
  intro l
  induction l with
  | nil =>
    intro cur
    rw [blocksAux]
    split
    · simp
    · simp
  | cons b t ih =>
    intro cur
    cases b
    · rw [blocksAux]
      split
      · have := ih 0
        simp only [List.sum_cons, List.length_cons]
        omega
      · have := ih 0
        simp only [List.length_cons]
        omega
    · rw [blocksAux]
      have := ih (cur + 1)
      simp only [List.length_cons]
      omega

/-- The run decomposition of a line cannot demand more cells than the
line holds: the blocks and the separating zeros fit. -/
theorem runLengths_sum_add_length_le (l : List Bool) :
    (runLengths l).sum + (runLengths l).length ≤ l.length + 1 := by
  have h := blocksAux_sum_add_length_le l 0
  rw [← blocks_eq_runLengths]
  simpa [blocks] using h

theorem min_length_le_of_runLengths {l : List Bool} {clue : List Nat}
    (h : runLengths l = clue) : min_length clue ≤ l.length := by
  rw [min_length]
  split
  · exact Nat.zero_le _
  · have hb := runLengths_sum_add_length_le l
    rw [h] at hb
    omega

theorem eq_map_some_of_ne_none :
    ∀ {l : List Cell}, (∀ x ∈ l, x ≠ none) →
      l = (l.map (fun o => o.getD false)).map some := by
  intro l
  induction l with
  | nil => intro _; rfl
  | cons a t ih =>
    intro h
    have ha : a ≠ none := h a (by simp)
    rcases a with _ | b
    · exact absurd rfl ha
    · simp only [List.map_cons, Option.getD_some]
      rw [← ih (fun x hx => h x (by simp [hx]))]

/-- A fully assigned grid can only satisfy a line constraint whose
minimum length fits on its line. -/
theorem ncSat_full_bound {g : List Cell} {c : NC}
    (hrange : ∀ v ∈ c.vars, v < g.length)
    (hfull : ∀ v, v < g.length → g.getD v none ≠ none)
    (hsat : ncSat g c = true) : min_length c.clue ≤ c.vars.length := by
  have hne : ∀ x ∈ lineVals g c, x ≠ none := by
    intro x hx
    rw [lineVals] at hx
    obtain ⟨w, hw, rfl⟩ := List.mem_map.mp hx
    exact hfull w (hrange w hw)
  have heq := eq_map_some_of_ne_none hne
  rw [ncSat, heq] at hsat
  have hrun := (Nonogram.is_satisfied_map_some c.clue _).mp hsat
  have hle := min_length_le_of_runLengths hrun
  calc min_length c.clue
      ≤ ((lineVals g c).map (fun o => o.getD false)).length := hle
    _ = c.vars.length := by rw [List.length_map, lineVals, List.length_map]

theorem no_full_sat {g : List Cell} {c0 : NC} {ncs : List NC} (hc0 : c0 ∈ ncs)
    (hrange : ∀ v ∈ c0.vars, v < g.length)
    (hcontra : c0.vars.length < min_length c0.clue)
    (hfull : ∀ v, v < g.length → g.getD v none ≠ none) :
    ncs.all (ncSat g) = false := by
  cases hall : ncs.all (ncSat g)
  · rfl
  · have hsat := List.all_eq_true.mp hall c0 hc0
    have := ncSat_full_bound hrange hfull hsat
    omega

theorem full_of_unassignedVars_nil {g : List Cell} (h : unassignedVars g = []) :
    ∀ v, v < g.length → g.getD v none ≠ none := by
  intro v hv hnone
  have hmem : v ∈ unassignedVars g := by
    rw [unassignedVars, List.mem_filter, List.mem_range]
    exact ⟨hv, by simpa using hnone⟩
  rw [h] at hmem
  cases hmem

theorem full_of_not_contains_none {g : List Cell} (h : g.contains none = false) :
    ∀ v, v < g.length → g.getD v none ≠ none := by
  intro v hv
  rw [getD_eq_get g none hv]
  exact ne_none_of_contains_none_eq_false h (List.get_mem _ _ _)

theorem prop3_length (cs : List NC) :
    ∀ (k : Nat) (values : List Cell),
      (prop3 cs k values).length = values.length := by
  intro k
  induction k with
  | zero => intro values; rfl
  | succ k ih =>
    intro values
    rw [prop3]
    split
    · rw [ih, pass1_length]
    · rw [pass1_length]

theorem fastBacktrack_length (cs : List NC) :
    ∀ (fuel : Nat) (values : List Cell),
      (fastBacktrack cs fuel values).values.length = values.length := by
  intro fuel
  induction fuel with
  | zero => intro values; rfl
  | succ fuel ih =>
    intro values
    rw [fastBacktrack]
    cases hun : unassignedVars values with
    | nil => rfl
    | cons var rest =>
      dsimp only
      split_ifs <;> simp_all [ih, prop3_length]

/-- `_backtrack` reports success only from its base case: the grid is
then fully assigned and every constraint satisfied. -/
theorem fb_sound (cs : List NC) :
    ∀ (fuel : Nat) (values : List Cell),
      (fastBacktrack cs fuel values).result = true →
      unassignedVars (fastBacktrack cs fuel values).values = [] ∧
        cs.all (ncSat (fastBacktrack cs fuel values).values) = true := by
  intro fuel
  induction fuel with
  | zero =>
    intro values h
    exact absurd h (by rw [fastBacktrack]; simp)
  | succ fuel ih =>
    intro values h
    rw [fastBacktrack] at h ⊢
    cases hun : unassignedVars values with
    | nil =>
      rw [hun] at h ⊢
      exact ⟨rfl, h⟩
    | cons var rest =>
      rw [hun] at h
      dsimp only at h ⊢
      split_ifs at h ⊢ <;> first | exact ih _ h | simp at h

theorem fastSolve_fails {ncs : List NC} {values : List Cell} {c0 : NC}
    (hc0 : c0 ∈ ncs) (hrange : ∀ v ∈ c0.vars, v < values.length)
    (hcontra : c0.vars.length < min_length c0.clue) :
    (fastSolve ncs values).1 = false := by
  rw [fastSolve]
  dsimp only
  split
  · rename_i hcond
    exfalso
    rw [Bool.and_eq_true] at hcond
    obtain ⟨h1, h2⟩ := hcond
    have hcf : (propagate ncs 102 values 0).1.contains none = false := by
      cases hc : (propagate ncs 102 values 0).1.contains none
      · rfl
      · exact absurd hc (by simpa using h1)
    have hfull := full_of_not_contains_none hcf
    have hrange' : ∀ v ∈ c0.vars, v < (propagate ncs 102 values 0).1.length := by
      intro v hv
      rw [propagate_length]
      exact hrange v hv
    have hfalse := no_full_sat hc0 hrange' hcontra hfull
    rw [h2] at hfalse
    cases hfalse
  · cases hres : (fastBacktrack ncs
      ((propagate ncs 102 values 0).1.length + 1)
      (propagate ncs 102 values 0).1).result with
    | false => rfl
    | true =>
      exfalso
      obtain ⟨hemp, hall⟩ := fb_sound ncs _ _ hres
      have hlen : (fastBacktrack ncs
          ((propagate ncs 102 values 0).1.length + 1)
          (propagate ncs 102 values 0).1).values.length = values.length := by
        rw [fastBacktrack_length, propagate_length]
      have hfull := full_of_unassignedVars_nil hemp
      have hrange' : ∀ v ∈ c0.vars, v < (fastBacktrack ncs
          ((propagate ncs 102 values 0).1.length + 1)
          (propagate ncs 102 values 0).1).values.length := by
        intro v hv
        rw [hlen]
        exact hrange v hv
      have hfalse := no_full_sat hc0 hrange' hcontra hfull
      rw [hall] at hfalse
      cases hfalse

/-- A `NonogramConstraint` as handed to the generic `Solver`: its
`is_satisfied` evaluates the Nonogram check on the constraint's line of
variable values (this is exactly what `Solver.is_consistent` and
`Solver.is_finished` call through `constraint.is_satisfied()`). -/
def toCst (c : NC) : CSP.Cst Bool :=
  ⟨c.vars, fun vals => Nonogram.is_satisfied c.clue vals⟩

/-- The `NonogramProblem`'s constraints as seen by the generic
`Solver`. -/
def toProblem (ncs : List NC) : CSP.Problem Bool :=
  ⟨ncs.map toCst⟩

theorem evalC_toCst (st : CSP.SState Bool) (c : NC) :
    CSP.evalC st (toCst c) = ncSat st.values c := rfl

/-- C5 counterexample: on the contradictory 1×2 puzzle whose row clue
`[5]` cannot fit in two cells, `FastNonogramSolver.solve` does return
`False` — but its phase-1 propagation assigns both cells (the empty
column clues force 0s) and its `_backtrack` undoes nothing of that, so
the solver does NOT leave all cells unassigned as the claim demands. -/
theorem fast_solver_leaves_assigned_cells :
    min_length (NC.mk [0, 1] [5]).clue = 5 ∧
      fastSolve [NC.mk [0, 1] [5], NC.mk [0] [], NC.mk [1] []]
        [none, none] = (false, [some false, some false], 1) := by
  constructor
  · decide
  · decide

/-- **C5** (amended).  For a contradictory Nonogram puzzle — some line
constraint's `min_length` exceeds its number of cells — with all cells
initially unassigned and well-formed constraints (nonempty, in-range
variable lists): the generic `Solver.solve` returns `False`, raises no
exception (`safe`, within fuel), and leaves the state — in particular
every cell — exactly as it started; `FastNonogramSolver.solve` also
returns `False` and raises none, but (unlike the original claim) it may
leave propagation-assigned cells behind, as
`fast_solver_leaves_assigned_cells` shows on a concrete puzzle. -/
theorem contradictory_puzzle_fails (ncs : List NC) (st : CSP.SState Bool)
    (hinit : ∀ v, CSP.getVal st v = none)
    (hwf : ∀ c ∈ ncs, c.vars ≠ [] ∧ ∀ v ∈ c.vars, v < st.values.length)
    (c0 : NC) (hc0 : c0 ∈ ncs)
    (hcontra : c0.vars.length < min_length c0.clue) :
    (CSP.solve (toProblem ncs) st).result = false ∧
      (CSP.solve (toProblem ncs) st).state = st ∧
      (CSP.solve (toProblem ncs) st).safe = true ∧
      (CSP.solve (toProblem ncs) st).fuelOk = true ∧
      (fastSolve ncs st.values).1 = false := by
  have hwfP : CSP.VarsWF (toProblem ncs) st.values.length := by
    intro c hc
    obtain ⟨c', hc', rfl⟩ := List.mem_map.mp hc
    exact hwf c' hc'
  have hres : (CSP.solve (toProblem ncs) st).result = false := by
    cases hr : (CSP.solve (toProblem ncs) st).result
    · rfl
    · exfalso
      have hfin := CSP.backtracking_sound (toProblem ncs) _ st hr
      rw [CSP.is_finished, Bool.and_eq_true] at hfin
      obtain ⟨hallc, hemp⟩ := hfin
      have hemp' : CSP.get_unassigned_variables
          (CSP.solve (toProblem ncs) st).state = [] := by simpa using hemp
      obtain ⟨hlen, -, -⟩ := CSP.backtracking_extract (toProblem ncs) _ st hr
      have hc0m : toCst c0 ∈ (toProblem ncs).constraints :=
        List.mem_map_of_mem _ hc0
      have hsatc := List.all_eq_true.mp hallc (toCst c0) hc0m
      rw [evalC_toCst] at hsatc
      have hfullF : ∀ v, v < (CSP.solve (toProblem ncs) st).state.values.length →
          (CSP.solve (toProblem ncs) st).state.values.getD v none ≠ none := by
        intro v hv hnone
        have hmem : v ∈ CSP.get_unassigned_variables
            (CSP.solve (toProblem ncs) st).state :=
          CSP.mem_get_unassigned.mpr ⟨hv, hnone⟩
        rw [hemp'] at hmem
        cases hmem
      have hrangeF : ∀ v ∈ c0.vars,
          v < (CSP.solve (toProblem ncs) st).state.values.length := by
        intro v hv
        have hlenS : (CSP.solve (toProblem ncs) st).state.values.length =
          st.values.length := hlen
        have := (hwf c0 hc0).2 v hv
        omega
      have := ncSat_full_bound hrangeF hfullF hsatc
      omega
  have hcount : CSP.unassignedCount st < st.values.length + 1 := by
    have := List.length_filter_le
      (fun v => (CSP.getVal st v).isNone) (List.range st.values.length)
    unfold CSP.unassignedCount CSP.get_unassigned_variables
    simp only [List.length_range] at this ⊢
    omega
  exact ⟨hres, CSP.backtracking_restore _ _ _ hres,
    CSP.backtracking_safe _ _ _
      (CSP.checkedInv_of_unassigned hinit hwfP) hwfP,
    CSP.backtracking_fuelOk _ _ _ hcount,
    fastSolve_fails hc0 (fun v hv => (hwf c0 hc0).2 v hv) hcontra⟩

def exC5ncs : List NC := [NC.mk [0, 1] [5], NC.mk [0] [], NC.mk [1] []]

def exC5st : CSP.SState Bool :=
  ⟨[none, none], [[false, true], [false, true]], []⟩

/-- Spot check of `contradictory_puzzle_fails` on the concrete 1×2
puzzle with row clue `[5]`. -/
theorem contradictory_puzzle_fails_spot :
    ((∀ v, CSP.getVal exC5st v = none) ∧
      (∀ c ∈ exC5ncs, c.vars ≠ [] ∧ ∀ v ∈ c.vars, v < exC5st.values.length) ∧
      NC.mk [0, 1] [5] ∈ exC5ncs ∧
      (NC.mk [0, 1] [5]).vars.length < min_length (NC.mk [0, 1] [5]).clue) ∧
    ((CSP.solve (toProblem exC5ncs) exC5st).result = false ∧
      (CSP.solve (toProblem exC5ncs) exC5st).state = exC5st ∧
      (CSP.solve (toProblem exC5ncs) exC5st).safe = true ∧
      (CSP.solve (toProblem exC5ncs) exC5st).fuelOk = true ∧
      (fastSolve exC5ncs exC5st.values).1 = false) := by
  have hinit : ∀ v, CSP.getVal exC5st v = none := by
    intro v
    rcases v with _ | _ | v <;> simp [CSP.getVal, exC5st]
  exact ⟨⟨hinit, by decide, by decide, by decide⟩,
    contradictory_puzzle_fails exC5ncs exC5st hinit (by decide)
      (NC.mk [0, 1] [5]) (by decide) (by decide)⟩

end FastNonogram
